import Mathlib

/-!
Shallow embedding of `DynamicAutoDiffCostFunction<CostFunctor, Stride>::Evaluate`
from `include/ceres/dynamic_autodiff_cost_function.h`.

Scalars are modelled as `ℚ` (the claims under study are about the control
structure of the strided evaluation: seeding, section bookkeeping, scatter
and the residual copy; none of them is about floating-point rounding).
A jet `Jet<double, Stride>` becomes a primal `a : ℚ` together with a
derivative vector `v : List ℚ` of length `Stride`.

The user functor is polymorphic in C++ (one template instantiated at
`double` and at `Jet`).  Here it is a pair of functions: `fS` at the plain
scalar type and `fJ` at the jet type, returning `none` when the functor
returns `false`.  Universal claims that in C++ quantify over templated
functors are stated with an explicit hypothesis tying `fJ` to `fS`
(`PrimalConsistentAt`, or the full dual-number contract
`IsLinearizationAt`, following spec sections 4.1 and 4.2).

Buffers are explicit values: `Evaluate` receives the caller's residual
buffer and one jacobian buffer per parameter block and returns the final
buffers, so frame claims become equalities between input and output
buffers.  `jacNull` models `jacobians == nullptr`; `req` models which
`jacobians[i]` slots are non-null.  The fatal `CHECK_GT(num_residuals(), 0)`
is modelled by the `Except.error` branch.
-/

namespace CeresDyn

/-- Dual number: a primal value and a vector of partial derivatives
(`Jet<double, Stride>` with `v` of length `Stride`). -/
structure Jet where
  a : ℚ
  v : List ℚ
deriving DecidableEq

/-- The all-zero jet, used only as a `getD` default. -/
def zeroJet : Jet := ⟨0, []⟩

/-- Jet addition (chain rule for `+`). -/
def Jet.add (x y : Jet) : Jet :=
  ⟨x.a + y.a, List.zipWith (· + ·) x.v y.v⟩

/-- Jet multiplication (product rule). -/
def Jet.mul (x y : Jet) : Jet :=
  ⟨x.a * y.a, List.zipWith (· + ·) (x.v.map (fun t => y.a * t)) (y.v.map (fun t => x.a * t))⟩

/-- Derivative vector of one stride pass for one position: all zeros
(`v.setZero()`), with entry `d` set to `1` when the position is seeded
(`v[active_parameter_count] = 1.0`). -/
def oneHot (S : Nat) : Option Nat → List ℚ
  | none => List.replicate S 0
  | some d => (List.replicate S (0 : ℚ)).set d 1

/-- The two section cursors carried across stride passes, together with the
per-pass count of seeded directions (`active_parameter_count`,
`current_derivative_section`, `current_derivative_section_cursor`). -/
structure Cursor where
  apc : Nat
  cds : Nat
  cdsc : Nat
deriving DecidableEq

/-- Flat-level view of the discovery walk: the start positions of the maximal
runs of active (derivative-requested) scalar positions.  `inSec` is
`in_derivative_section`, `p` is `parameter_cursor`. -/
def secStarts : List Bool → Bool → Nat → List Nat
  | [], _, _ => []
  | a :: rest, inSec, p =>
    if a then
      if inSec then secStarts rest true (p + 1)
      else p :: secStarts rest true (p + 1)
    else secStarts rest false (p + 1)

/-- The discovery loop of `Evaluate` (header lines 169-187): walks the
parameter blocks, records `start_derivative_section` and accumulates
`num_active_parameters`.  `req.getD i false` models `jacobians[i] != nullptr`. -/
def discover : List Nat → List Bool → Bool → Nat → List Nat × Nat
  | [], _, _, _ => ([], 0)
  | b :: bs, req, inSec, cursor =>
    if req.getD 0 false then
      let r := discover bs (req.drop 1) true (cursor + b)
      ((if inSec then r.1 else cursor :: r.1), b + r.2)
    else
      let r := discover bs (req.drop 1) false (cursor + b)
      (r.1, r.2)

/-- Per flat scalar position, whether its block has a non-null jacobian slot. -/
def flatActive : List Nat → List Bool → List Bool
  | [], _ => []
  | b :: bs, req => List.replicate b (req.getD 0 false) ++ flatActive bs (req.drop 1)

/-- The flattened parameter values (`input_jets[parameter_cursor].a =
parameters[i][j]`). -/
def flatParams : List Nat → List (List ℚ) → List ℚ
  | [], _ => []
  | b :: bs, ps => (List.range b).map (fun j => (ps.getD 0 []).getD j 0) ++ flatParams bs (ps.drop 1)

/-- Per flat scalar position, its (block index, intra-block offset) pair,
starting the block count at `i`. -/
def flatIJFrom : List Nat → Nat → List (Nat × Nat)
  | [], _ => []
  | b :: bs, i => (List.range b).map (fun j => (i, j)) ++ flatIJFrom bs (i + 1)

/-- Per flat scalar position, its (block index, intra-block offset) pair. -/
def flatIJ (bs : List Nat) : List (Nat × Nat) := flatIJFrom bs 0

/-- First flat position of block `i`. -/
def blockStart (bs : List Nat) (i : Nat) : Nat := (bs.take i).sum

/-- Number of active positions strictly below flat position `x`. -/
def rank (acts : List Bool) (x : Nat) : Nat := (acts.take x).count true

/-- One seeding (equivalently scatter) loop of one stride pass, over the flat
positions (header lines 224-242 and, with identical control flow, 254-274).
Processes the flags of positions `p, p+1, ...` with cursor state `c`;
returns the final cursor, the per-position seeding decision
(`some d` = this position is seeded one-hot in derivative slot `d`, and its
jacobian column is scattered from slot `d`; `none` = untouched), and the
list of `current_derivative_section` values at which
`start_derivative_section` was indexed (the `&&` short-circuits, so no read
happens once `active_parameter_count` has reached the stride). -/
def strideAssign (S : Nat) (ss : List Nat) : List Bool → Nat → Cursor → Cursor × List (Option Nat) × List Nat
  | [], _, c => (c, [], [])
  | a :: rest, p, c =>
    if c.apc < S then
      if ss.getD c.cds 0 + c.cdsc ≤ p then
        if a then
          let r := strideAssign S ss rest (p + 1) ⟨c.apc + 1, c.cds, c.cdsc + 1⟩
          (r.1, some c.apc :: r.2.1, c.cds :: r.2.2)
        else
          let r := strideAssign S ss rest (p + 1) ⟨c.apc, c.cds + 1, 0⟩
          (r.1, none :: r.2.1, c.cds :: r.2.2)
      else
        let r := strideAssign S ss rest (p + 1) c
        (r.1, none :: r.2.1, c.cds :: r.2.2)
    else
      let r := strideAssign S ss rest (p + 1) c
      (r.1, none :: r.2.1, r.2.2)

/-- The input jets of one stride pass: primal values from the flattened
parameters, derivative vectors zeroed and then seeded one-hot at the
positions chosen by the pass. -/
def mkInputs (S : Nat) : List ℚ → List (Option Nat) → List Jet
  | [], _ => []
  | x :: xs, asg => ⟨x, oneHot S (asg.getD 0 none)⟩ :: mkInputs S xs (asg.drop 1)

/-- The per-block pointer array `jet_parameters`: block `i` sees the slice of
`input_jets` starting at its block start. -/
def groupBlocks : List Nat → List Jet → List (List Jet)
  | [], _ => []
  | b :: bs, js => js.take b :: groupBlocks bs (js.drop b)

/-- Scatter of one seeded position into its block's jacobian buffer
(header lines 262-265): for every residual `k`,
`jacobians[i][k * block_size + j] = output_jets[k].v[d]`. -/
def scatterPos (m bsi : Nat) (out : List Jet) (j d : Nat) (buf : List ℚ) : List ℚ :=
  (List.range m).foldl (fun bf k => bf.set (k * bsi + j) ((out.getD k zeroJet).v.getD d 0)) buf

/-- The scatter loop of one stride pass over all flat positions: positions
with decision `some d` write their jacobian column, the rest leave the
buffers alone.  The cursor control deciding `some`/`none` is the same
machine as the seeding loop (`strideAssign`), which the C++ code re-runs
from the saved initial cursor values. -/
def scatter (m : Nat) (bs : List Nat) (out : List Jet) : List (Nat × Nat) → List (Option Nat) → List (List ℚ) → List (List ℚ)
  | [], _, jacs => jacs
  | _ :: _, [], jacs => jacs
  | ij :: rest, o :: asg, jacs =>
    match o with
    | some d =>
      scatter m bs out rest asg
        (jacs.set ij.1 (scatterPos m (bs.getD ij.1 0) out ij.2 d (jacs.getD ij.1 [])))
    | none => scatter m bs out rest asg jacs

/-- Writing `m` values into the caller's residual buffer
(`residuals[k] = output_jets[k].a` for `k < num_residuals()`). -/
def writeVals (m : Nat) (vals : List ℚ) : List ℚ :=
  (List.range m).map (fun k => vals.getD k 0)

/-- Result of a non-fatal `Evaluate` call: the returned boolean, the final
residual buffer, the final jacobian buffers, and the number of functor
invocations performed. -/
structure EvalResult where
  ok : Bool
  residuals : List ℚ
  jacs : List (List ℚ)
  calls : Nat
deriving DecidableEq

/-- The stride-pass loop (header lines 214-283).  Each pass runs the cursor
machine once (the C++ runs it twice with identical control flow: once
seeding, once scattering), invokes the jet functor, propagates failure
immediately, scatters the jacobian pieces, and copies the residuals on the
final pass only. -/
def runPasses (fJ : List (List Jet) → Option (List Jet)) (S : Nat) (ss : List Nat)
    (acts : List Bool) (flatP : List ℚ) (ij : List (Nat × Nat)) (bs : List Nat) (m : Nat) :
    Nat → Cursor → List ℚ → List (List ℚ) → EvalResult
  | 0, _, res, jacs => ⟨true, res, jacs, 0⟩
  | fuel + 1, c, res, jacs =>
    let sa := strideAssign S ss acts 0 ⟨0, c.cds, c.cdsc⟩
    match fJ (groupBlocks bs (mkInputs S flatP sa.2.1)) with
    | none => ⟨false, res, jacs, 1⟩
    | some out =>
      let jacs2 := scatter m bs out ij sa.2.1 jacs
      let res2 := if fuel = 0 then writeVals m (out.map Jet.a) else res
      let r := runPasses fJ S ss acts flatP ij bs m fuel sa.1 res2 jacs2
      ⟨r.ok, r.residuals, r.jacs, r.calls + 1⟩

/-- Number of stride passes, `ceil(num_active_parameters / Stride)`. -/
def numStrides (nap S : Nat) : Nat := (nap + S - 1) / S

/-- The `start_derivative_section` vector at the start of the pass loop: the
discovered section starts with the total parameter count appended
(header line 203). -/
def sectionList (bs : List Nat) (req : List Bool) : List Nat :=
  (discover bs req false 0).1 ++ [bs.sum]

/-- The computed `num_active_parameters`. -/
def numActive (bs : List Nat) (req : List Bool) : Nat := (discover bs req false 0).2

/-- `DynamicAutoDiffCostFunction::Evaluate` (header lines 122-285).
`m` is `num_residuals()`; `jacNull` models `jacobians == nullptr`;
`req.getD i false` models `jacobians[i] != nullptr`; `residuals` and `jacs`
are the caller's buffers.  The `CHECK_GT(num_residuals(), 0)` abort is the
`Except.error` branch and is evaluated before anything else. -/
def Evaluate (fS : List (List ℚ) → Option (List ℚ)) (fJ : List (List Jet) → Option (List Jet))
    (S : Nat) (bs : List Nat) (m : Int) (params : List (List ℚ)) (req : List Bool)
    (residuals : List ℚ) (jacs : List (List ℚ)) (jacNull : Bool) : Except String EvalResult :=
  if m ≤ 0 then .error "You must call SetNumResiduals() before Evaluate()."
  else if jacNull then
    match fS params with
    | none => .ok ⟨false, residuals, jacs, 1⟩
    | some rs => .ok ⟨true, writeVals m.toNat rs, jacs, 1⟩
  else if numActive bs req = 0 then
    match fS params with
    | none => .ok ⟨false, residuals, jacs, 1⟩
    | some rs => .ok ⟨true, writeVals m.toNat rs, jacs, 1⟩
  else
    .ok (runPasses fJ S (sectionList bs req) (flatActive bs req) (flatParams bs params)
      (flatIJ bs) bs m.toNat (numStrides (numActive bs req) S) ⟨0, 0, 0⟩ residuals jacs)

/-- Cursor state entering stride pass `t` (the two section cursors carry over
from the previous pass; `active_parameter_count` is reset to zero). -/
def passState (S : Nat) (ss : List Nat) (acts : List Bool) : Nat → Cursor
  | 0 => ⟨0, 0, 0⟩
  | t + 1 =>
    let e := (strideAssign S ss acts 0 (passState S ss acts t)).1
    ⟨0, e.cds, e.cdsc⟩

/-- The seeding decisions of stride pass `t`. -/
def passAssign (S : Nat) (ss : List Nat) (acts : List Bool) (t : Nat) : List (Option Nat) :=
  (strideAssign S ss acts 0 (passState S ss acts t)).2.1

/-- The `current_derivative_section` values at which
`start_derivative_section` is indexed during pass `t`. -/
def passReads (S : Nat) (ss : List Nat) (acts : List Bool) (t : Nat) : List Nat :=
  (strideAssign S ss acts 0 (passState S ss acts t)).2.2

/-- The per-block jet inputs handed to the functor on stride pass `t`. -/
def passInputs (S : Nat) (ss : List Nat) (acts : List Bool) (flatP : List ℚ)
    (bs : List Nat) (t : Nat) : List (List Jet) :=
  groupBlocks bs (mkInputs S flatP (passAssign S ss acts t))

/-- Intended seeding decision for flat position `x` in the pass whose first
derivative slot covers global active index `B`: active positions are seeded
in rank order, `S` per pass, one-hot in slot `rank x - B`. -/
def seedSpec (acts : List Bool) (S B x : Nat) : Option Nat :=
  if acts.getD x false = true ∧ B ≤ rank acts x ∧ rank acts x < B + S then
    some (rank acts x - B)
  else none

/-- Number of `some` entries of a decision list. -/
def countSome (l : List (Option Nat)) : Nat := l.countP (fun o => o.isSome)

/-- Directional-derivative pairing: the linear form in the input jets'
derivative vectors that a (differentiable) functor's output derivative slot
`d` computes, with `J k p` the partial derivative of residual `k` with
respect to flat parameter position `p`. -/
def lin (J : Nat → Nat → ℚ) (k d : Nat) : List Jet → Nat → ℚ
  | [], _ => 0
  | jet :: rest, p => jet.v.getD d 0 * J k p + lin J k d rest (p + 1)

/-- Primal projection of per-block jet inputs. -/
def blockPrimals (blocks : List (List Jet)) : List (List ℚ) :=
  blocks.map (fun b => b.map Jet.a)

/-- Output jets of a functor that is exactly the forward-mode derivative of
`rs` with jacobian matrix `J`: primal `rs k`, derivative slot `d` the
corresponding directional derivative of the seeded inputs. -/
def linearOutputs (J : Nat → Nat → ℚ) (S : Nat) (blocks : List (List Jet)) (rs : List ℚ) : List Jet :=
  rs.enum.map (fun kr => ⟨kr.2, (List.range S).map (fun d => lin J kr.1 d blocks.flatten 0)⟩)

/-- The dual-number functor contract of spec sections 4.1-4.2 at the fixed
evaluation point `params`: on jet inputs whose primals are `params` (any
stride width `S`), the functor succeeds exactly when the scalar functor
does, produces the same primal outputs, and its output derivative vectors
are the directional derivatives determined by a jacobian matrix `J`. -/
def IsLinearizationAt (fJ : List (List Jet) → Option (List Jet))
    (fS : List (List ℚ) → Option (List ℚ)) (J : Nat → Nat → ℚ)
    (params : List (List ℚ)) : Prop :=
  ∀ (S : Nat) (blocks : List (List Jet)),
    blockPrimals blocks = params →
    (∀ b ∈ blocks, ∀ jet ∈ b, jet.v.length = S) →
    fJ blocks = (fS params).map (linearOutputs J S blocks)

/-- Weaker functor contract: on jet inputs whose primals are `params`, the
jet functor fails exactly when the scalar functor does and its output
primals are the scalar outputs (spec section 4.2: both instantiations of the
one template produce consistent primal values). -/
def PrimalConsistentAt (fJ : List (List Jet) → Option (List Jet))
    (fS : List (List ℚ) → Option (List ℚ)) (params : List (List ℚ)) : Prop :=
  ∀ blocks : List (List Jet),
    blockPrimals blocks = params →
    (fJ blocks).map (fun out => out.map Jet.a) = fS params

/-- The jacobian buffer of one block as the spec describes it directly
(spec section 4.4 step 5): row-major, element `(residual k, column j)` at
linear offset `k * block_size + j`, holding `J k (blockStart + j)`. -/
def jacSpecBuf (J : Nat → Nat → ℚ) (m bsi start : Nat) : List ℚ :=
  (List.range (m * bsi)).map (fun off => J (off / bsi) (start + off % bsi))

/-- All jacobian buffers after a successful call, as the spec describes them:
requested blocks hold the exact jacobian, unrequested blocks keep the
caller's buffer untouched. -/
def jacsDirect (J : Nat → Nat → ℚ) (m : Nat) (bs : List Nat) (req : List Bool)
    (jacs : List (List ℚ)) : List (List ℚ) :=
  (List.range bs.length).map (fun i =>
    if req.getD i false then jacSpecBuf J m (bs.getD i 0) (blockStart bs i)
    else jacs.getD i [])

/-- Slice a flat list of scalars back into per-block lists (shape companion of
`groupBlocks` on the primal side). -/
def groupVals : List Nat → List ℚ → List (List ℚ)
  | [], _ => []
  | b :: bs, xs => xs.take b :: groupVals bs (xs.drop b)

/-- Decode a flat position into its (block index, intra-block offset) pair. -/
def posBlock : List Nat → Nat → Nat × Nat
  | [], p => (0, p)
  | b :: bs, p =>
    if p < b then (0, p)
    else
      let r := posBlock bs (p - b)
      (r.1 + 1, r.2)

/-- Invariant of the per-pass cursor machine, at the point where position `p`
is about to be processed.  `B` is the number of derivative directions seeded
in earlier passes, `q = ss[cds] + cdsc` is the boundary the condition
`parameter_cursor >= start_derivative_section[cds] + cdsc` compares against. -/
structure SInv (S : Nat) (ss : List Nat) (acts : List Bool) (B p : Nat) (c : Cursor) : Prop where
  apc_le : c.apc ≤ S
  cds_lt : c.cds < ss.length
  rank_q : rank acts (ss.getD c.cds 0 + c.cdsc) = B + c.apc
  hi : c.cds + 1 < ss.length →
    (ss.getD c.cds 0 + c.cdsc < ss.getD (c.cds + 1) 0 ∨ ss.getD c.cds 0 + c.cdsc = acts.length)
  sentinel : c.cds + 1 = ss.length → c.cdsc = 0
  live : c.apc < S → p ≤ ss.getD c.cds 0 + c.cdsc ∧
    ∀ x, p ≤ x → x < ss.getD c.cds 0 + c.cdsc → acts.getD x false = true → rank acts x < B
  frozen : c.apc = S → ∀ x, p ≤ x → acts.getD x false = true → B + S ≤ rank acts x

/-- The static shape of the section-boundary list `ss` relative to the active
flags: sentinel-terminated, strictly increasing, nothing active before the
first boundary, within one section the flags are a run of `true` followed by
a run of `false`, and a boundary with a real successor is immediately
preceded by an inactive position unless it is the very first position. -/
structure SecShape (acts : List Bool) (ss : List Nat) : Prop where
  ne : ss ≠ []
  last_eq : ss.getLast? = some acts.length
  lb : ∀ k, k < ss.length → ss.getD k 0 ≤ acts.length
  mono : ∀ k, k + 1 < ss.length → ss.getD k 0 < ss.getD (k + 1) 0
  head_false : ∀ x, x < ss.getD 0 0 → acts.getD x false = false
  stay_false : ∀ k, k + 1 < ss.length → ∀ x y, ss.getD k 0 ≤ x → x ≤ y →
    y < ss.getD (k + 1) 0 → acts.getD x false = false → acts.getD y false = false
  pred_false : ∀ j, 1 ≤ j → j + 1 < ss.length → acts.getD (ss.getD j 0 - 1) false = false

/-- State of the jacobian buffers after the first `t` stride passes: buffers
of constant blocks are untouched, buffers of active blocks hold the exact
jacobian entry for every column already seeded (the active positions of rank
below `t * S`) and the caller's original bytes everywhere else. -/
def JacsInv (J : Nat → Nat → ℚ) (full : List Bool) (bs : List Nat) (req : List Bool)
    (m S t : Nat) (jacs0 jc : List (List ℚ)) : Prop :=
  jc.length = bs.length ∧
  ∀ i0, i0 < bs.length →
    (req.getD i0 false = false → jc.getD i0 [] = jacs0.getD i0 []) ∧
    (req.getD i0 false = true →
      (jc.getD i0 []).length = m * bs.getD i0 0 ∧
      ∀ k0 j0, k0 < m → j0 < bs.getD i0 0 →
        (jc.getD i0 []).getD (k0 * bs.getD i0 0 + j0) 0 =
          if rank full (blockStart bs i0 + j0) < t * S then J k0 (blockStart bs i0 + j0)
          else (jacs0.getD i0 []).getD (k0 * bs.getD i0 0 + j0) 0)

/-- Induction-friendly strengthening of `SecShape` for the suffix of the
discovery walk that starts at position `p` with flag `inSec`: `L` is the
remaining boundary list (sentinel included). -/
structure SecAux (full : List Bool) (inSec : Bool) (p : Nat) (L : List Nat) : Prop where
  ne : L ≠ []
  last_eq : L.getLast? = some full.length
  lb : ∀ k, k < L.length → p ≤ L.getD k 0 ∧ L.getD k 0 ≤ full.length
  mono : ∀ k, k + 1 < L.length → L.getD k 0 < L.getD (k + 1) 0
  stay_false : ∀ k, k + 1 < L.length → ∀ x y, L.getD k 0 ≤ x → x ≤ y →
    y < L.getD (k + 1) 0 → full.getD x false = false → full.getD y false = false
  pred_false : ∀ j, j + 1 < L.length →
    (L.getD j 0 = p ∧ inSec = false) ∨ full.getD (L.getD j 0 - 1) false = false
  head_run : ∃ e, p ≤ e ∧ e ≤ L.getD 0 0 ∧
    (∀ x, p ≤ x → x < e → full.getD x false = true) ∧
    (∀ x, e ≤ x → x < L.getD 0 0 → full.getD x false = false) ∧
    (inSec = false → e = p)

/-- A functor that always reports failure, at the scalar type. -/
def failFunctorS : List (List ℚ) → Option (List ℚ) := fun _ => none

/-- A functor that always reports failure, at the jet type. -/
def failFunctorJ : List (List Jet) → Option (List Jet) := fun _ => none

/-- Derivative-vector width of the first jet of the first block (used to
instantiate a concrete linearized functor at whatever stride it is given). -/
def vWidth (blocks : List (List Jet)) : Nat :=
  ((blocks.getD 0 []).getD 0 zeroJet).v.length

/-- Concrete linear functor `f(x) = [2 * x[0]]` on one block of size one,
scalar instantiation. -/
def exLinS (ps : List (List ℚ)) : Option (List ℚ) :=
  some [2 * (ps.getD 0 []).getD 0 0]

/-- Jacobian matrix of `exLinS`. -/
def exLinJ : Nat → Nat → ℚ := fun k p => if k = 0 ∧ p = 0 then 2 else 0

/-- Concrete linear functor, jet instantiation: exactly the forward-mode
derivative of `exLinS`. -/
def exLinFJ (blocks : List (List Jet)) : Option (List Jet) :=
  (exLinS (blockPrimals blocks)).map (linearOutputs exLinJ (vWidth blocks) blocks)

/-- The concrete test functor of the spec's concrete scenario, scalar
instantiation: `f(x1, x2) = [x1[0]^2 + x2[0]^2, x1[1]^2 + x2[1]^2]`. -/
def exampleFunctorS (ps : List (List ℚ)) : Option (List ℚ) :=
  let x1 := ps.getD 0 []
  let x2 := ps.getD 1 []
  some [x1.getD 0 0 * x1.getD 0 0 + x2.getD 0 0 * x2.getD 0 0,
        x1.getD 1 0 * x1.getD 1 0 + x2.getD 1 0 * x2.getD 1 0]

/-- The concrete test functor, jet instantiation (same arithmetic expression
graph, evaluated in jet arithmetic). -/
def exampleFunctorJ (ps : List (List Jet)) : Option (List Jet) :=
  let x1 := ps.getD 0 []
  let x2 := ps.getD 1 []
  some [Jet.add (Jet.mul (x1.getD 0 zeroJet) (x1.getD 0 zeroJet))
          (Jet.mul (x2.getD 0 zeroJet) (x2.getD 0 zeroJet)),
        Jet.add (Jet.mul (x1.getD 1 zeroJet) (x1.getD 1 zeroJet))
          (Jet.mul (x2.getD 1 zeroJet) (x2.getD 1 zeroJet))]

/-! ### Generic list helpers -/

theorem getD_replicate {α : Type} (a d : α) (n i : Nat) :
    (List.replicate n a).getD i d = if i < n then a else d := by
  split
  · rename_i h
    rw [List.getD_eq_getElem?_getD, List.getElem?_eq_getElem (by simpa using h)]
    simp
  · rename_i h
    rw [List.getD_eq_getElem?_getD, List.getElem?_eq_none (by simpa using Nat.le_of_not_lt h)]
    rfl

theorem getD_set {α : Type} (l : List α) (i j : Nat) (a d : α) :
    (l.set i a).getD j d = if i = j ∧ j < l.length then a else l.getD j d := by
  split
  · rename_i h
    rw [List.getD_eq_getElem?_getD,
      List.getElem?_eq_getElem (by simpa [List.length_set] using h.2)]
    rw [List.getElem_set]
    simp [h.1]
  · rename_i h
    by_cases hj : j < l.length
    · have hij : i ≠ j := fun hh => h ⟨hh, hj⟩
      rw [List.getD_eq_getElem?_getD,
        List.getElem?_eq_getElem (by simpa [List.length_set] using hj), List.getElem_set,
        if_neg hij, List.getD_eq_getElem?_getD, List.getElem?_eq_getElem hj]
    · rw [List.getD_eq_getElem?_getD, List.getElem?_eq_none (by simpa using Nat.le_of_not_lt hj),
        List.getD_eq_getElem?_getD, List.getElem?_eq_none (by simpa using Nat.le_of_not_lt hj)]

theorem length_oneHot (S : Nat) (o : Option Nat) : (oneHot S o).length = S := by
  cases o <;> simp [oneHot]

theorem getD_oneHot_none (S d : Nat) : (oneHot S none).getD d 0 = 0 := by
  rw [oneHot, getD_replicate]
  split <;> rfl

theorem getD_oneHot_some (S e d : Nat) (he : e < S) :
    (oneHot S (some e)).getD d 0 = if d = e then 1 else 0 := by
  rw [oneHot, getD_set]
  simp only [List.length_replicate]
  by_cases h : d = e
  · rw [if_pos ⟨h.symm, h ▸ he⟩, if_pos h]
  · rw [if_neg (fun hc => h hc.1.symm), if_neg h, getD_replicate]
    split <;> rfl

/-! ### Rank: the number of active positions below a flat position -/

theorem rank_zero (acts : List Bool) : rank acts 0 = 0 := rfl

theorem rank_succ (acts : List Bool) (x : Nat) :
    rank acts (x + 1) = rank acts x + (if acts.getD x false = true then 1 else 0) := by
  unfold rank
  rw [List.take_succ, List.count_append, List.getD_eq_getElem?_getD]
  rcases h : acts[x]? with _ | a
  · simp
  · cases a <;> simp

theorem rank_succ_true (acts : List Bool) (x : Nat) (h : acts.getD x false = true) :
    rank acts (x + 1) = rank acts x + 1 := by
  rw [rank_succ, if_pos h]

theorem rank_succ_false (acts : List Bool) (x : Nat) (h : acts.getD x false = false) :
    rank acts (x + 1) = rank acts x := by
  rw [rank_succ, h]
  simp

theorem rank_mono (acts : List Bool) {x y : Nat} (h : x ≤ y) :
    rank acts x ≤ rank acts y := by
  induction y, h using Nat.le_induction with
  | base => exact Nat.le_refl _
  | succ n hn ih => rw [rank_succ]; omega

theorem rank_eq_of_false_between (acts : List Bool) {u v : Nat} (huv : u ≤ v)
    (h : ∀ z, u ≤ z → z < v → acts.getD z false = false) :
    rank acts v = rank acts u := by
  induction v, huv using Nat.le_induction with
  | base => rfl
  | succ n hn ih =>
    rw [rank_succ_false acts n (h n hn (Nat.lt_succ_self n)),
      ih (fun z hz hz2 => h z hz (Nat.lt_succ_of_lt hz2))]

theorem rank_lt_of_active (acts : List Bool) {x y : Nat}
    (hx : acts.getD x false = true) (hxy : x < y) :
    rank acts x < rank acts y := by
  have h1 : rank acts (x + 1) = rank acts x + 1 := rank_succ_true acts x hx
  have h2 : rank acts (x + 1) ≤ rank acts y := rank_mono acts hxy
  omega

theorem lt_length_of_getD_true (acts : List Bool) {x : Nat}
    (h : acts.getD x false = true) : x < acts.length := by
  by_contra hx
  rw [List.getD_eq_getElem?_getD, List.getElem?_eq_none (Nat.le_of_not_lt hx)] at h
  exact Bool.false_ne_true h

theorem rank_of_ge_length (acts : List Bool) {x : Nat} (h : acts.length ≤ x) :
    rank acts x = acts.count true := by
  unfold rank
  rw [List.take_of_length_le h]

theorem rank_lt_count_of_active (acts : List Bool) {x : Nat}
    (h : acts.getD x false = true) : rank acts x < acts.count true := by
  have h1 := rank_succ_true acts x h
  have h2 : rank acts (x + 1) ≤ rank acts acts.length :=
    rank_mono acts (lt_length_of_getD_true acts h)
  rw [rank_of_ge_length acts (Nat.le_refl _)] at h2
  omega

theorem rank_le (acts : List Bool) (x : Nat) : rank acts x ≤ acts.count true := by
  rcases Nat.lt_or_ge x acts.length with h | h
  · have := rank_mono acts (Nat.le_of_lt h)
    rwa [rank_of_ge_length acts (Nat.le_refl _)] at this
  · rw [rank_of_ge_length acts h]

/-! ### Input jets -/

theorem length_mkInputs (S : Nat) (xs : List ℚ) (asg : List (Option Nat)) :
    (mkInputs S xs asg).length = xs.length := by
  induction xs generalizing asg with
  | nil => rfl
  | cons x xs ih => simp [mkInputs, ih]

theorem map_a_mkInputs (S : Nat) (xs : List ℚ) (asg : List (Option Nat)) :
    (mkInputs S xs asg).map Jet.a = xs := by
  induction xs generalizing asg with
  | nil => rfl
  | cons x xs ih => simp [mkInputs, ih]

theorem getD_mkInputs (S : Nat) (xs : List ℚ) (asg : List (Option Nat)) (p : Nat)
    (hp : p < xs.length) :
    (mkInputs S xs asg).getD p zeroJet = ⟨xs.getD p 0, oneHot S (asg.getD p none)⟩ := by
  induction xs generalizing asg p with
  | nil => simp at hp
  | cons x xs ih =>
    cases p with
    | zero => rfl
    | succ p =>
      rw [mkInputs, List.getD_cons_succ, List.getD_cons_succ, ih _ _ (by simpa using hp)]
      cases asg with
      | nil => rfl
      | cons o os => rfl

theorem v_length_mkInputs (S : Nat) (xs : List ℚ) (asg : List (Option Nat)) :
    ∀ jet ∈ mkInputs S xs asg, jet.v.length = S := by
  induction xs generalizing asg with
  | nil => intro jet h; simp [mkInputs] at h
  | cons x xs ih =>
    intro jet h
    rw [mkInputs, List.mem_cons] at h
    rcases h with h | h
    · rw [h]; exact length_oneHot S _
    · exact ih _ jet h

/-! ### Static structure of the section boundary list -/

theorem drop_eq_getD_cons {α : Type} (l : List α) (d : α) (p : Nat) (h : p < l.length) :
    l.drop p = l.getD p d :: l.drop (p + 1) := by
  rw [List.drop_eq_getElem_cons h]
  congr 1
  rw [List.getD_eq_getElem?_getD, List.getElem?_eq_getElem h]
  rfl

theorem secStarts_cons (a : Bool) (rest : List Bool) (inSec : Bool) (p : Nat) :
    secStarts (a :: rest) inSec p =
      if a then
        (if inSec then secStarts rest true (p + 1) else p :: secStarts rest true (p + 1))
      else secStarts rest false (p + 1) := rfl

theorem secAux_terminal (full : List Bool) (inSec : Bool) :
    SecAux full inSec full.length (secStarts (full.drop full.length) inSec full.length ++ [full.length]) := by
  rw [List.drop_length]
  show SecAux full inSec full.length [full.length]
  refine ⟨by simp, rfl, ?_, ?_, ?_, ?_, ?_⟩
  · intro k hk
    simp only [List.length_singleton, Nat.lt_one_iff] at hk
    subst hk
    exact ⟨Nat.le_refl _, Nat.le_refl _⟩
  · intro k hk
    simp at hk
  · intro k hk
    simp at hk
  · intro j hj
    simp at hj
  · exact ⟨full.length, Nat.le_refl _, by rw [List.getD_cons_zero],
      fun x h1 h2 => absurd h2 (by omega),
      fun x h1 h2 => absurd h2 (by rw [List.getD_cons_zero] at h2; omega), fun _ => rfl⟩

theorem secAux_all (full : List Bool) :
    ∀ fuel p inSec, p ≤ full.length → full.length ≤ p + fuel →
    SecAux full inSec p (secStarts (full.drop p) inSec p ++ [full.length]) := by
  intro fuel
  induction fuel with
  | zero =>
    intro p inSec hp hN
    have hpN : p = full.length := by omega
    subst hpN
    exact secAux_terminal full inSec
  | succ fuel ih =>
    intro p inSec hp hN
    rcases Nat.lt_or_ge p full.length with hlt | hge
    · rw [drop_eq_getD_cons full false p hlt, secStarts_cons]
      cases ha : full.getD p false with
      | false =>
        simp only [Bool.false_eq_true, if_false]
        have IH := ih (p + 1) false (by omega) (by omega)
        refine ⟨IH.ne, IH.last_eq, ?_, IH.mono, IH.stay_false, ?_, ?_⟩
        · intro k hk
          have := IH.lb k hk
          omega
        · intro j hj
          rcases IH.pred_false j hj with ⟨hL, _⟩ | hr
          · right
            rw [hL]
            simpa using ha
          · right; exact hr
        · rcases IH.head_run with ⟨e, h1, h2, h3, h4, h5⟩
          have he : e = p + 1 := h5 rfl
          subst he
          refine ⟨p, Nat.le_refl _, by omega, fun x hx1 hx2 => absurd hx2 (by omega),
            ?_, fun _ => rfl⟩
          intro x hx1 hx2
          rcases Nat.eq_or_lt_of_le hx1 with hxe | hxl
          · rw [← hxe]; exact ha
          · exact h4 x hxl hx2
      | true =>
        cases inSec with
        | true =>
          simp only [if_true]
          have IH := ih (p + 1) true (by omega) (by omega)
          refine ⟨IH.ne, IH.last_eq, ?_, IH.mono, IH.stay_false, ?_, ?_⟩
          · intro k hk
            have := IH.lb k hk
            omega
          · intro j hj
            rcases IH.pred_false j hj with ⟨_, hc⟩ | hr
            · exact absurd hc (by simp)
            · right; exact hr
          · rcases IH.head_run with ⟨e, h1, h2, h3, h4, h5⟩
            refine ⟨e, by omega, h2, ?_, h4, fun hc => absurd hc (by simp)⟩
            intro x hx1 hx2
            rcases Nat.eq_or_lt_of_le hx1 with hxe | hxl
            · rw [← hxe]; exact ha
            · exact h3 x hxl hx2
        | false =>
          simp only [if_true, Bool.false_eq_true, if_false, List.cons_append]
          have IH := ih (p + 1) true (by omega) (by omega)
          have hL0 : p + 1 ≤ (secStarts (full.drop (p + 1)) true (p + 1) ++ [full.length]).getD 0 0 := by
            have := IH.lb 0 (by have := IH.ne; cases h : secStarts (full.drop (p + 1)) true (p + 1) ++ [full.length] with
              | nil => exact absurd h this
              | cons u v => simp [h])
            exact this.1
          refine ⟨by simp, ?_, ?_, ?_, ?_, ?_, ?_⟩
          · rw [← List.cons_append]
            exact List.getLast?_concat _
          · intro k hk
            cases k with
            | zero =>
              rw [List.getD_cons_zero]
              exact ⟨Nat.le_refl _, by omega⟩
            | succ k =>
              rw [List.getD_cons_succ]
              have := IH.lb k (by simpa using hk)
              omega
          · intro k hk
            cases k with
            | zero =>
              rw [List.getD_cons_zero, List.getD_cons_succ]
              omega
            | succ k =>
              rw [List.getD_cons_succ, List.getD_cons_succ]
              exact IH.mono k (by simpa using hk)
          · intro k hk x y hx hxy hy hax
            cases k with
            | zero =>
              rw [List.getD_cons_zero] at hx
              rw [List.getD_cons_succ] at hy
              rcases IH.head_run with ⟨e, h1, h2, h3, h4, h5⟩
              have hxp : p < x := by
                rcases Nat.eq_or_lt_of_le hx with hxe | hxl
                · rw [← hxe] at hax; rw [ha] at hax; exact absurd hax (by simp)
                · exact hxl
              have hxe : e ≤ x := by
                by_contra hc
                have := h3 x hxp (Nat.lt_of_not_le hc)
                rw [this] at hax
                exact absurd hax (by simp)
              exact h4 y (by omega) hy
            | succ k =>
              rw [List.getD_cons_succ] at hx hy
              exact IH.stay_false k (by simpa using hk) x y hx hxy hy hax
          · intro j hj
            cases j with
            | zero => left; exact ⟨List.getD_cons_zero, rfl⟩
            | succ j =>
              rw [List.getD_cons_succ]
              rcases IH.pred_false j (by simpa using hj) with ⟨_, hc⟩ | hr
              · exact absurd hc (by simp)
              · right; exact hr
          · exact ⟨p, Nat.le_refl _, by rw [List.getD_cons_zero],
              fun x h1 h2 => absurd h2 (by omega),
              fun x h1 h2 => absurd h2 (by rw [List.getD_cons_zero] at h2; omega),
              fun _ => rfl⟩
    · have hpN : p = full.length := by omega
      subst hpN
      exact secAux_terminal full inSec

theorem secShape_main (full : List Bool) :
    SecShape full (secStarts full false 0 ++ [full.length]) := by
  have h := secAux_all full full.length 0 false (Nat.zero_le _) (by omega)
  rw [List.drop_zero] at h
  refine ⟨h.ne, h.last_eq, fun k hk => (h.lb k hk).2, h.mono, ?_, h.stay_false, ?_⟩
  · rcases h.head_run with ⟨e, hpe, heL, htrue, hfalse, hif⟩
    have he : e = 0 := hif rfl
    subst he
    intro x hx
    exact hfalse x (Nat.zero_le _) hx
  · intro j hj hjl
    rcases h.pred_false j hjl with ⟨hL, _⟩ | hr
    · exfalso
      have hk : j - 1 + 1 = j := by omega
      have hm := h.mono (j - 1) (by omega)
      rw [hk] at hm
      have := (h.lb (j - 1) (by omega)).1
      omega
    · exact hr

/-! ### The block-level discovery walk equals the flat-level one -/

theorem secStarts_replicate_true_in (b : Nat) (tail : List Bool) (p : Nat) :
    secStarts (List.replicate b true ++ tail) true p = secStarts tail true (p + b) := by
  induction b generalizing p with
  | zero => simp
  | succ b ih =>
    rw [List.replicate_succ, List.cons_append, secStarts_cons]
    simp only [if_true]
    rw [ih (p + 1)]
    congr 1
    omega

theorem secStarts_replicate_true (b : Nat) (hb : 0 < b) (tail : List Bool) (inSec : Bool) (p : Nat) :
    secStarts (List.replicate b true ++ tail) inSec p =
      if inSec then secStarts tail true (p + b)
      else p :: secStarts tail true (p + b) := by
  rcases Nat.exists_eq_add_of_lt hb with ⟨b', hb'⟩
  have hbb : b = b' + 1 := by omega
  subst hbb
  rw [List.replicate_succ, List.cons_append, secStarts_cons]
  simp only [if_true]
  cases inSec with
  | true =>
    simp only [if_true]
    rw [secStarts_replicate_true_in]
    congr 1
    omega
  | false =>
    simp only [Bool.false_eq_true, if_false]
    rw [secStarts_replicate_true_in]
    have : p + 1 + b' = p + (b' + 1) := by omega
    rw [this]

theorem secStarts_replicate_false_out (b : Nat) (tail : List Bool) (p : Nat) :
    secStarts (List.replicate b false ++ tail) false p = secStarts tail false (p + b) := by
  induction b generalizing p with
  | zero => simp
  | succ b ih =>
    rw [List.replicate_succ, List.cons_append, secStarts_cons]
    simp only [Bool.false_eq_true, if_false]
    rw [ih (p + 1)]
    congr 1
    omega

theorem secStarts_replicate_false (b : Nat) (hb : 0 < b) (tail : List Bool) (inSec : Bool) (p : Nat) :
    secStarts (List.replicate b false ++ tail) inSec p = secStarts tail false (p + b) := by
  rcases Nat.exists_eq_add_of_lt hb with ⟨b', hb'⟩
  have hbb : b = b' + 1 := by omega
  subst hbb
  rw [List.replicate_succ, List.cons_append, secStarts_cons]
  simp only [Bool.false_eq_true, if_false]
  rw [secStarts_replicate_false_out]
  congr 1
  omega

theorem discover_eq (bs : List Nat) :
    ∀ req inSec cursor, (∀ b ∈ bs, 0 < b) →
    discover bs req inSec cursor =
      (secStarts (flatActive bs req) inSec cursor, (flatActive bs req).count true) := by
  induction bs with
  | nil => intro req inSec cursor _; rfl
  | cons b bs ih =>
    intro req inSec cursor hpos
    have hb : 0 < b := hpos b (List.mem_cons_self b bs)
    have hrest : ∀ x ∈ bs, 0 < x := fun x hx => hpos x (List.mem_cons_of_mem b hx)
    rw [discover, flatActive]
    cases hr : req.getD 0 false with
    | true =>
      simp only [if_true]
      rw [ih (req.drop 1) true (cursor + b) hrest]
      rw [secStarts_replicate_true b hb _ inSec cursor, List.count_append,
        List.count_replicate_self]
    | false =>
      simp only [Bool.false_eq_true, if_false]
      rw [ih (req.drop 1) false (cursor + b) hrest]
      rw [secStarts_replicate_false b hb _ inSec cursor, List.count_append,
        List.count_replicate]
      simp

theorem length_flatActive (bs : List Nat) (req : List Bool) :
    (flatActive bs req).length = bs.sum := by
  induction bs generalizing req with
  | nil => rfl
  | cons b bs ih => simp [flatActive, ih]

theorem length_flatParams (bs : List Nat) (ps : List (List ℚ)) :
    (flatParams bs ps).length = bs.sum := by
  induction bs generalizing ps with
  | nil => rfl
  | cons b bs ih => simp [flatParams, ih]

theorem length_flatIJFrom (bs : List Nat) (i : Nat) :
    (flatIJFrom bs i).length = bs.sum := by
  induction bs generalizing i with
  | nil => rfl
  | cons b bs ih => simp [flatIJFrom, ih]

theorem numActive_eq (bs : List Nat) (req : List Bool) (hpos : ∀ b ∈ bs, 0 < b) :
    numActive bs req = (flatActive bs req).count true := by
  rw [numActive, discover_eq bs req false 0 hpos]

theorem sectionList_eq (bs : List Nat) (req : List Bool) (hpos : ∀ b ∈ bs, 0 < b) :
    sectionList bs req =
      secStarts (flatActive bs req) false 0 ++ [(flatActive bs req).length] := by
  rw [sectionList, discover_eq bs req false 0 hpos, length_flatActive]

theorem secShape_sectionList (bs : List Nat) (req : List Bool) (hpos : ∀ b ∈ bs, 0 < b) :
    SecShape (flatActive bs req) (sectionList bs req) := by
  rw [sectionList_eq bs req hpos]
  exact secShape_main (flatActive bs req)

/-! ### Characterization of the per-pass cursor machine -/

theorem strideAssign_cons (S : Nat) (ss : List Nat) (a : Bool) (rest : List Bool) (p : Nat) (c : Cursor) :
    strideAssign S ss (a :: rest) p c =
      if c.apc < S then
        if ss.getD c.cds 0 + c.cdsc ≤ p then
          if a then
            ((strideAssign S ss rest (p + 1) ⟨c.apc + 1, c.cds, c.cdsc + 1⟩).1,
              some c.apc :: (strideAssign S ss rest (p + 1) ⟨c.apc + 1, c.cds, c.cdsc + 1⟩).2.1,
              c.cds :: (strideAssign S ss rest (p + 1) ⟨c.apc + 1, c.cds, c.cdsc + 1⟩).2.2)
          else
            ((strideAssign S ss rest (p + 1) ⟨c.apc, c.cds + 1, 0⟩).1,
              none :: (strideAssign S ss rest (p + 1) ⟨c.apc, c.cds + 1, 0⟩).2.1,
              c.cds :: (strideAssign S ss rest (p + 1) ⟨c.apc, c.cds + 1, 0⟩).2.2)
        else
          ((strideAssign S ss rest (p + 1) c).1,
            none :: (strideAssign S ss rest (p + 1) c).2.1,
            c.cds :: (strideAssign S ss rest (p + 1) c).2.2)
      else
        ((strideAssign S ss rest (p + 1) c).1,
          none :: (strideAssign S ss rest (p + 1) c).2.1,
          (strideAssign S ss rest (p + 1) c).2.2) := rfl

theorem getD_last {α : Type} (l : List α) (d v : α) (h : l.getLast? = some v) :
    l.getD (l.length - 1) d = v := by
  rw [List.getLast?_eq_getElem?] at h
  rw [List.getD_eq_getElem?_getD, h]
  rfl

theorem range_map_shift {α : Type} (g : Nat → α) (p n : Nat) :
    (List.range (n + 1)).map (fun i => g (p + i)) =
      g p :: (List.range n).map (fun i => g (p + 1 + i)) := by
  rw [List.range_succ_eq_map, List.map_cons, List.map_map]
  congr 1
  apply List.map_congr_left
  intro a _
  show g (p + (a + 1)) = g (p + 1 + a)
  congr 1
  omega

theorem countSome_cons_some (d : Nat) (l : List (Option Nat)) :
    countSome (some d :: l) = countSome l + 1 := by
  rw [countSome, countSome, List.countP_cons]
  simp

theorem countSome_cons_none (l : List (Option Nat)) :
    countSome (none :: l) = countSome l := by
  rw [countSome, countSome, List.countP_cons]
  simp

theorem seedSpec_none_of_inactive (full : List Bool) (S B x : Nat)
    (h : full.getD x false = false) : seedSpec full S B x = none := by
  rw [seedSpec, if_neg]
  intro hc
  rw [h] at hc
  exact Bool.false_ne_true hc.1

theorem strideAssign_spec (S : Nat) (ss : List Nat) (full : List Bool) (_hS : 0 < S)
    (hshape : SecShape full ss) :
    ∀ fuel p c B, full.length ≤ p + fuel → p ≤ full.length → SInv S ss full B p c →
    (strideAssign S ss (full.drop p) p c).2.1 =
        (List.range (full.length - p)).map (fun i => seedSpec full S B (p + i)) ∧
    SInv S ss full B full.length (strideAssign S ss (full.drop p) p c).1 ∧
    (strideAssign S ss (full.drop p) p c).1.apc =
        c.apc + countSome (strideAssign S ss (full.drop p) p c).2.1 ∧
    (∀ r ∈ (strideAssign S ss (full.drop p) p c).2.2, r < ss.length) := by
  intro fuel
  induction fuel with
  | zero =>
    intro p c B hfuel hpN hinv
    have hpN2 : p = full.length := by omega
    subst hpN2
    rw [List.drop_length]
    refine ⟨by simp [strideAssign], hinv, by simp [strideAssign, countSome], ?_⟩
    intro r hr
    simp [strideAssign] at hr
  | succ fuel ih =>
    intro p c B hfuel hpN hinv
    rcases Nat.lt_or_ge p full.length with hlt | hge
    swap
    · have hpN2 : p = full.length := by omega
      subst hpN2
      rw [List.drop_length]
      refine ⟨by simp [strideAssign], hinv, by simp [strideAssign, countSome], ?_⟩
      intro r hr
      simp [strideAssign] at hr
    rw [drop_eq_getD_cons full false p hlt]
    have hshift : full.length - p = (full.length - (p + 1)) + 1 := by omega
    by_cases h1 : c.apc < S
    · by_cases h2 : ss.getD c.cds 0 + c.cdsc ≤ p
      · -- the guard fires; p equals the boundary q
        have hq : p = ss.getD c.cds 0 + c.cdsc := Nat.le_antisymm (hinv.live h1).1 h2
        cases ha : full.getD p false with
        | true =>
          -- seed: one-hot in slot c.apc, advance the section cursor
          have hrk : rank full p = B + c.apc := by rw [hq]; exact hinv.rank_q
          have hspec : seedSpec full S B p = some c.apc := by
            rw [seedSpec, if_pos ⟨ha, by omega, by omega⟩]
            congr 1
            omega
          have hinv2 : SInv S ss full B (p + 1) ⟨c.apc + 1, c.cds, c.cdsc + 1⟩ := by
            have hq1 : ss.getD c.cds 0 + (c.cdsc + 1) = p + 1 := by omega
            refine ⟨?_, hinv.cds_lt, ?_, ?_, ?_, ?_, ?_⟩
            · show c.apc + 1 ≤ S
              omega
            · show rank full (ss.getD c.cds 0 + (c.cdsc + 1)) = B + (c.apc + 1)
              rw [hq1, rank_succ_true full p ha, hrk]
              omega
            · intro hcl
              have hcl2 : c.cds + 1 < ss.length := hcl
              show ss.getD c.cds 0 + (c.cdsc + 1) < ss.getD (c.cds + 1) 0 ∨
                ss.getD c.cds 0 + (c.cdsc + 1) = full.length
              rw [hq1]
              rcases hinv.hi hcl2 with hlo | hN
              · rcases Nat.lt_or_ge (p + 1) (ss.getD (c.cds + 1) 0) with hc1 | hc1
                · exact Or.inl hc1
                · have heq : p + 1 = ss.getD (c.cds + 1) 0 := by omega
                  rcases Nat.lt_or_ge (c.cds + 1 + 1) ss.length with hc2 | hc2
                  · exfalso
                    have hpf := hshape.pred_false (c.cds + 1) (by omega) hc2
                    rw [← heq] at hpf
                    simp only [Nat.add_sub_cancel] at hpf
                    rw [ha] at hpf
                    simp at hpf
                  · have hc3 : c.cds + 1 = ss.length - 1 := by omega
                    right
                    rw [heq, hc3, getD_last ss 0 full.length hshape.last_eq]
              · exfalso
                omega
            · intro hcl
              have hcl2 : c.cds + 1 = ss.length := hcl
              exfalso
              have hc3 : c.cds = ss.length - 1 := by omega
              have hlast := getD_last ss 0 full.length hshape.last_eq
              rw [← hc3] at hlast
              omega
            · intro _
              refine ⟨?_, ?_⟩
              · show p + 1 ≤ ss.getD c.cds 0 + (c.cdsc + 1)
                omega
              · intro x hx1 hx2 _
                exfalso
                have hx3 : x < ss.getD c.cds 0 + (c.cdsc + 1) := hx2
                omega
            · intro hfz x hx hax
              have hfz2 : c.apc + 1 = S := hfz
              have h4 : rank full (p + 1) ≤ rank full x := rank_mono full hx
              rw [rank_succ_true full p ha, hrk] at h4
              omega
          have IH := ih (p + 1) ⟨c.apc + 1, c.cds, c.cdsc + 1⟩ B (by omega) (by omega) hinv2
          rw [strideAssign_cons, if_pos h1, if_pos h2, if_pos rfl]
          refine ⟨?_, IH.2.1, ?_, ?_⟩
          · rw [hshift, range_map_shift (fun x => seedSpec full S B x) p]
            rw [IH.1]
            rw [Nat.add_zero, hspec]
          · have hpr : (⟨c.apc + 1, c.cds, c.cdsc + 1⟩ : Cursor).apc = c.apc + 1 := rfl
            rw [IH.2.2.1, countSome_cons_some, hpr]
            omega
          · intro r hr
            rcases List.mem_cons.mp hr with hr | hr
            · rw [hr]; exact hinv.cds_lt
            · exact IH.2.2.2 r hr
        | false =>
          -- constant position at the boundary: advance to the next section
          have hcl : c.cds + 1 < ss.length := by
            rcases Nat.lt_or_ge (c.cds + 1) ss.length with hc | hc
            · exact hc
            · exfalso
              have hc3 : c.cds = ss.length - 1 := by
                have := hinv.cds_lt
                omega
              have hz := hinv.sentinel (by have := hinv.cds_lt; omega)
              have := getD_last ss 0 full.length hshape.last_eq
              rw [← hc3] at this
              omega
          have hq2 : ss.getD c.cds 0 + c.cdsc < ss.getD (c.cds + 1) 0 := by
            rcases hinv.hi hcl with hlo | hN
            · exact hlo
            · exfalso; omega
          have hfalse : ∀ y, p ≤ y → y < ss.getD (c.cds + 1) 0 → full.getD y false = false := by
            intro y hy1 hy2
            refine hshape.stay_false c.cds hcl p y ?_ hy1 hy2 ha
            omega
          have hspec : seedSpec full S B p = none := seedSpec_none_of_inactive full S B p ha
          have hinv2 : SInv S ss full B (p + 1) ⟨c.apc, c.cds + 1, 0⟩ := by
            refine ⟨hinv.apc_le, hcl, ?_, ?_, ?_, ?_, ?_⟩
            · show rank full (ss.getD (c.cds + 1) 0 + 0) = B + c.apc
              rw [Nat.add_zero]
              have hrk := rank_eq_of_false_between full (u := p) (v := ss.getD (c.cds + 1) 0)
                (by omega) (fun z hz1 hz2 => hfalse z hz1 hz2)
              rw [hrk, hq]
              exact hinv.rank_q
            · intro hcl2
              have hcl3 : c.cds + 1 + 1 < ss.length := hcl2
              show ss.getD (c.cds + 1) 0 + 0 < ss.getD (c.cds + 1 + 1) 0 ∨
                ss.getD (c.cds + 1) 0 + 0 = full.length
              rw [Nat.add_zero]
              exact Or.inl (hshape.mono (c.cds + 1) hcl3)
            · intro _; rfl
            · intro _
              refine ⟨?_, ?_⟩
              · show p + 1 ≤ ss.getD (c.cds + 1) 0 + 0
                omega
              · intro x hx1 hx2 hax
                have hx3 : x < ss.getD (c.cds + 1) 0 + 0 := hx2
                rw [Nat.add_zero] at hx3
                rw [hfalse x (by omega) hx3] at hax
                exact absurd hax (by simp)
            · intro hfz
              have hfz2 : c.apc = S := hfz
              omega
          have IH := ih (p + 1) ⟨c.apc, c.cds + 1, 0⟩ B (by omega) (by omega) hinv2
          rw [strideAssign_cons, if_pos h1, if_pos h2]
          simp only [Bool.false_eq_true, if_false]
          refine ⟨?_, IH.2.1, ?_, ?_⟩
          · rw [hshift, range_map_shift (fun x => seedSpec full S B x) p]
            rw [IH.1]
            rw [Nat.add_zero, hspec]
          · rw [IH.2.2.1, countSome_cons_none]
          · intro r hr
            rcases List.mem_cons.mp hr with hr | hr
            · rw [hr]; exact hinv.cds_lt
            · exact IH.2.2.2 r hr
      · -- boundary not reached yet: skip (the read still happens)
        have hq : p < ss.getD c.cds 0 + c.cdsc := by omega
        have hspec : seedSpec full S B p = none := by
          cases ha : full.getD p false with
          | true =>
            rw [seedSpec, if_neg]
            intro hc
            have := (hinv.live h1).2 p (Nat.le_refl p) hq ha
            omega
          | false => exact seedSpec_none_of_inactive full S B p ha
        have hinv2 : SInv S ss full B (p + 1) c := by
          refine ⟨hinv.apc_le, hinv.cds_lt, hinv.rank_q, hinv.hi, hinv.sentinel, ?_, ?_⟩
          · intro h
            refine ⟨by omega, ?_⟩
            intro x hx1 hx2 hax
            exact (hinv.live h).2 x (by omega) hx2 hax
          · intro hfz x hx hax
            exact hinv.frozen hfz x (by omega) hax
        have IH := ih (p + 1) c B (by omega) (by omega) hinv2
        rw [strideAssign_cons, if_pos h1, if_neg (by omega)]
        refine ⟨?_, IH.2.1, ?_, ?_⟩
        · rw [hshift, range_map_shift (fun x => seedSpec full S B x) p]
          rw [IH.1]
          rw [Nat.add_zero, hspec]
        · rw [IH.2.2.1, countSome_cons_none]
        · intro r hr
          rcases List.mem_cons.mp hr with hr | hr
          · rw [hr]; exact hinv.cds_lt
          · exact IH.2.2.2 r hr
    · -- the stride is exhausted: the pass is frozen
      have hfz : c.apc = S := by
        have := hinv.apc_le
        omega
      have hspec : seedSpec full S B p = none := by
        cases ha : full.getD p false with
        | true =>
          rw [seedSpec, if_neg]
          intro hc
          have := hinv.frozen hfz p (Nat.le_refl p) ha
          omega
        | false => exact seedSpec_none_of_inactive full S B p ha
      have hinv2 : SInv S ss full B (p + 1) c := by
        refine ⟨hinv.apc_le, hinv.cds_lt, hinv.rank_q, hinv.hi, hinv.sentinel, ?_, ?_⟩
        · intro h
          exact absurd h (by omega)
        · intro _ x hx hax
          exact hinv.frozen hfz x (by omega) hax
      have IH := ih (p + 1) c B (by omega) (by omega) hinv2
      rw [strideAssign_cons, if_neg h1]
      refine ⟨?_, IH.2.1, ?_, IH.2.2.2⟩
      · rw [hshift, range_map_shift (fun x => seedSpec full S B x) p]
        rw [IH.1]
        rw [Nat.add_zero, hspec]
      · rw [IH.2.2.1, countSome_cons_none]

/-! ### Counting seeded positions and the cross-pass invariant -/

theorem getD_range_map {α : Type} (g : Nat → α) (n p : Nat) (d : α) (hp : p < n) :
    ((List.range n).map g).getD p d = g p := by
  rw [List.getD_eq_getElem?_getD, List.getElem?_map, List.getElem?_range hp]
  rfl

theorem countSome_append (l1 l2 : List (Option Nat)) :
    countSome (l1 ++ l2) = countSome l1 + countSome l2 := by
  rw [countSome, countSome, countSome, List.countP_append]

theorem rank_append_of_le (g : List Bool) (l2 : List Bool) (i : Nat) (h : i ≤ g.length) :
    rank (g ++ l2) i = rank g i := by
  rw [rank, rank, List.take_append_of_le_length h]

theorem seedSpec_append_lt (g : List Bool) (a : Bool) (S B i : Nat) (h : i < g.length) :
    seedSpec (g ++ [a]) S B i = seedSpec g S B i := by
  rw [seedSpec, seedSpec, List.getD_append _ _ _ _ h, rank_append_of_le g [a] i (Nat.le_of_lt h)]

theorem seedSpec_append_last (g : List Bool) (a : Bool) (S B : Nat) :
    seedSpec (g ++ [a]) S B g.length =
      if a = true ∧ B ≤ g.count true ∧ g.count true < B + S then some (g.count true - B)
      else none := by
  have h1 : (g ++ [a]).getD g.length false = a := by
    rw [List.getD_append_right _ _ _ _ (Nat.le_refl _), Nat.sub_self, List.getD_cons_zero]
  have h2 : rank (g ++ [a]) g.length = g.count true := by
    rw [rank, List.take_left]
  rw [seedSpec, h1, h2]

theorem countSome_seedSpec (full : List Bool) (S : Nat) : ∀ B,
    countSome ((List.range full.length).map (seedSpec full S B)) =
      min (B + S) (full.count true) - min B (full.count true) := by
  induction full using List.reverseRecOn with
  | nil => intro B; simp [countSome]
  | append_singleton g a ihg =>
    intro B
    rw [List.length_append, List.length_singleton, List.range_succ, List.map_append,
      countSome_append]
    have hmap : (List.range g.length).map (seedSpec (g ++ [a]) S B) =
        (List.range g.length).map (seedSpec g S B) := by
      apply List.map_congr_left
      intro i hi
      exact seedSpec_append_lt g a S B i (List.mem_range.mp hi)
    rw [hmap, ihg B, List.map_singleton, seedSpec_append_last]
    have hc : (g ++ [a]).count true = g.count true + if a = true then 1 else 0 := by
      rw [List.count_append, List.count_singleton]
      cases a <;> simp
    rw [hc]
    by_cases hcond : a = true ∧ B ≤ g.count true ∧ g.count true < B + S
    · rw [if_pos hcond]
      have : countSome [some (g.count true - B)] = 1 := by rfl
      rw [this, hcond.1]
      simp only [if_true]
      omega
    · rw [if_neg hcond]
      have : countSome [(none : Option Nat)] = 0 := by rfl
      rw [this]
      cases ha : a with
      | true =>
        rw [ha] at hcond
        simp only [if_true]
        have : ¬(B ≤ g.count true ∧ g.count true < B + S) := fun hg => hcond ⟨rfl, hg⟩
        omega
      | false =>
        simp only [Bool.false_eq_true, if_false]
        omega

theorem numStrides_mul_ge (nap S : Nat) (hS : 0 < S) : nap ≤ numStrides nap S * S := by
  rcases Nat.eq_zero_or_pos nap with h0 | hpos
  · subst h0
    exact Nat.zero_le _
  · rw [numStrides]
    have he : nap + S - 1 = (nap - 1) + S := by omega
    rw [he, Nat.add_div_right _ hS]
    have hdm := Nat.div_add_mod (nap - 1) S
    have hmod : (nap - 1) % S < S := Nat.mod_lt _ hS
    rw [Nat.add_mul, Nat.one_mul, Nat.mul_comm]
    generalize hgen : S * ((nap - 1) / S) = t at hdm
    omega

theorem numStrides_pred_mul_lt (nap S : Nat) (hS : 0 < S) (hnap : 0 < nap) :
    (numStrides nap S - 1) * S < nap := by
  rw [numStrides]
  have he : nap + S - 1 = (nap - 1) + S := by omega
  rw [he, Nat.add_div_right _ hS]
  have hdm := Nat.div_add_mod (nap - 1) S
  simp only [Nat.add_sub_cancel]
  rw [Nat.mul_comm]
  generalize hgen : S * ((nap - 1) / S) = t at hdm
  omega

theorem numStrides_pos (nap S : Nat) (hS : 0 < S) (hnap : 0 < nap) :
    0 < numStrides nap S := by
  rcases Nat.eq_zero_or_pos (numStrides nap S) with h0 | hpos
  · have := numStrides_mul_ge nap S hS
    rw [h0] at this
    omega
  · exact hpos

theorem sInv_initial (S : Nat) (ss : List Nat) (full : List Bool) (hS : 0 < S)
    (hshape : SecShape full ss) : SInv S ss full 0 0 ⟨0, 0, 0⟩ := by
  have hlen : 0 < ss.length := by
    cases hss : ss with
    | nil => exact absurd hss hshape.ne
    | cons u v => simp
  refine ⟨Nat.zero_le _, hlen, ?_, ?_, ?_, ?_, ?_⟩
  · show rank full (ss.getD 0 0 + 0) = 0 + 0
    rw [Nat.add_zero]
    rw [rank_eq_of_false_between full (u := 0) (v := ss.getD 0 0) (Nat.zero_le _)
      (fun z _ hz2 => hshape.head_false z hz2)]
    rfl
  · intro hcl
    have hcl2 : 0 + 1 < ss.length := hcl
    show ss.getD 0 0 + 0 < ss.getD (0 + 1) 0 ∨ ss.getD 0 0 + 0 = full.length
    rw [Nat.add_zero]
    exact Or.inl (hshape.mono 0 hcl2)
  · intro _; rfl
  · intro _
    refine ⟨Nat.zero_le _, ?_⟩
    intro x hx1 hx2 hax
    show rank full x < 0
    exfalso
    have hx3 : x < ss.getD 0 0 + 0 := hx2
    rw [Nat.add_zero] at hx3
    rw [hshape.head_false x hx3] at hax
    exact absurd hax (by simp)
  · intro hfz
    have hfz2 : (0 : Nat) = S := hfz
    omega

theorem pass_transfer (S : Nat) (ss : List Nat) (full : List Bool) (B : Nat) (hS : 0 < S)
    (c : Cursor) (hinv : SInv S ss full B full.length c) (hfull : c.apc = S) :
    SInv S ss full (B + S) 0 ⟨0, c.cds, c.cdsc⟩ := by
  refine ⟨Nat.zero_le _, hinv.cds_lt, ?_, hinv.hi, hinv.sentinel, ?_, ?_⟩
  · show rank full (ss.getD c.cds 0 + c.cdsc) = B + S + 0
    rw [hinv.rank_q, hfull]
    omega
  · intro _
    refine ⟨Nat.zero_le _, ?_⟩
    intro x hx1 hx2 hax
    show rank full x < B + S
    have hx3 : x < ss.getD c.cds 0 + c.cdsc := hx2
    have := rank_lt_of_active full hax hx3
    rw [hinv.rank_q, hfull] at this
    exact this
  · intro hfz
    have hfz2 : (0 : Nat) = S := hfz
    omega

theorem passState_inv (S : Nat) (ss : List Nat) (full : List Bool) (hS : 0 < S)
    (hshape : SecShape full ss) :
    ∀ t, t * S ≤ full.count true → SInv S ss full (t * S) 0 (passState S ss full t) := by
  intro t
  induction t with
  | zero =>
    intro _
    show SInv S ss full (0 * S) 0 ⟨0, 0, 0⟩
    rw [Nat.zero_mul]
    exact sInv_initial S ss full hS hshape
  | succ t iht =>
    intro ht
    have ht2 : t * S ≤ full.count true := by
      have : t * S ≤ (t + 1) * S := by
        rw [Nat.add_mul, Nat.one_mul]
        omega
      omega
    have hinv := iht ht2
    have hsp := strideAssign_spec S ss full hS hshape full.length 0 (passState S ss full t)
      (t * S) (by omega) (Nat.zero_le _) hinv
    rw [List.drop_zero] at hsp
    have hcount : countSome ((strideAssign S ss full 0 (passState S ss full t)).2.1) = S := by
      rw [hsp.1]
      have hmap : (List.range (full.length - 0)).map (fun i => seedSpec full S (t * S) (0 + i)) =
          (List.range full.length).map (seedSpec full S (t * S)) := by
        rw [Nat.sub_zero]
        apply List.map_congr_left
        intro i _
        rw [Nat.zero_add]
      rw [hmap, countSome_seedSpec full S (t * S)]
      have h3 : (t + 1) * S = t * S + S := by rw [Nat.add_mul, Nat.one_mul]
      omega
    have hapc : (strideAssign S ss full 0 (passState S ss full t)).1.apc = S := by
      rw [hsp.2.2.1, hcount]
      have : (passState S ss full t).apc = 0 := by
        cases t <;> rfl
      omega
    have htr := pass_transfer S ss full (t * S) hS
      ((strideAssign S ss full 0 (passState S ss full t)).1) hsp.2.1 hapc
    show SInv S ss full ((t + 1) * S) 0
      ⟨0, (strideAssign S ss full 0 (passState S ss full t)).1.cds,
        (strideAssign S ss full 0 (passState S ss full t)).1.cdsc⟩
    have h3 : (t + 1) * S = t * S + S := by rw [Nat.add_mul, Nat.one_mul]
    rw [h3]
    exact htr

theorem passAssign_spec (S : Nat) (ss : List Nat) (full : List Bool) (hS : 0 < S)
    (hshape : SecShape full ss) (t : Nat) (ht : t * S ≤ full.count true) :
    passAssign S ss full t = (List.range full.length).map (seedSpec full S (t * S)) := by
  have hinv := passState_inv S ss full hS hshape t ht
  have hsp := strideAssign_spec S ss full hS hshape full.length 0 (passState S ss full t)
    (t * S) (by omega) (Nat.zero_le _) hinv
  rw [List.drop_zero] at hsp
  rw [passAssign, hsp.1, Nat.sub_zero]
  apply List.map_congr_left
  intro i _
  rw [Nat.zero_add]

theorem passReads_lt (S : Nat) (ss : List Nat) (full : List Bool) (hS : 0 < S)
    (hshape : SecShape full ss) (t : Nat) (ht : t * S ≤ full.count true) :
    ∀ r ∈ passReads S ss full t, r < ss.length := by
  have hinv := passState_inv S ss full hS hshape t ht
  have hsp := strideAssign_spec S ss full hS hshape full.length 0 (passState S ss full t)
    (t * S) (by omega) (Nat.zero_le _) hinv
  rw [List.drop_zero] at hsp
  exact hsp.2.2.2

theorem passState_cds_lt (S : Nat) (ss : List Nat) (full : List Bool) (hS : 0 < S)
    (hshape : SecShape full ss) (t : Nat) (ht : t * S ≤ full.count true ∨
      ∃ u, t = u + 1 ∧ u * S ≤ full.count true) :
    (passState S ss full t).cds < ss.length := by
  rcases ht with ht | ⟨u, htu, hu⟩
  · exact (passState_inv S ss full hS hshape t ht).cds_lt
  · subst htu
    have hinv := passState_inv S ss full hS hshape u hu
    have hsp := strideAssign_spec S ss full hS hshape full.length 0 (passState S ss full u)
      (u * S) (by omega) (Nat.zero_le _) hinv
    rw [List.drop_zero] at hsp
    exact hsp.2.1.cds_lt

/-! ### Pass loop: failure propagation and invocation counts -/

theorem passState_apc (S : Nat) (ss : List Nat) (acts : List Bool) (t : Nat) :
    (passState S ss acts t).apc = 0 := by
  cases t <;> rfl

theorem cursor_reset_eq (c : Cursor) (h : c.apc = 0) :
    (⟨0, c.cds, c.cdsc⟩ : Cursor) = c := by
  cases c
  simp_all

theorem runPasses_cons (fJ : List (List Jet) → Option (List Jet)) (S : Nat) (ss : List Nat)
    (acts : List Bool) (flatP : List ℚ) (ij : List (Nat × Nat)) (bs : List Nat) (m : Nat)
    (fuel : Nat) (c : Cursor) (res : List ℚ) (jacs : List (List ℚ)) :
    runPasses fJ S ss acts flatP ij bs m (fuel + 1) c res jacs =
      match fJ (groupBlocks bs (mkInputs S flatP
          (strideAssign S ss acts 0 ⟨0, c.cds, c.cdsc⟩).2.1)) with
      | none => ⟨false, res, jacs, 1⟩
      | some out =>
        ⟨(runPasses fJ S ss acts flatP ij bs m fuel
            (strideAssign S ss acts 0 ⟨0, c.cds, c.cdsc⟩).1
            (if fuel = 0 then writeVals m (out.map Jet.a) else res)
            (scatter m bs out ij (strideAssign S ss acts 0 ⟨0, c.cds, c.cdsc⟩).2.1 jacs)).ok,
          (runPasses fJ S ss acts flatP ij bs m fuel
            (strideAssign S ss acts 0 ⟨0, c.cds, c.cdsc⟩).1
            (if fuel = 0 then writeVals m (out.map Jet.a) else res)
            (scatter m bs out ij (strideAssign S ss acts 0 ⟨0, c.cds, c.cdsc⟩).2.1 jacs)).residuals,
          (runPasses fJ S ss acts flatP ij bs m fuel
            (strideAssign S ss acts 0 ⟨0, c.cds, c.cdsc⟩).1
            (if fuel = 0 then writeVals m (out.map Jet.a) else res)
            (scatter m bs out ij (strideAssign S ss acts 0 ⟨0, c.cds, c.cdsc⟩).2.1 jacs)).jacs,
          (runPasses fJ S ss acts flatP ij bs m fuel
            (strideAssign S ss acts 0 ⟨0, c.cds, c.cdsc⟩).1
            (if fuel = 0 then writeVals m (out.map Jet.a) else res)
            (scatter m bs out ij (strideAssign S ss acts 0 ⟨0, c.cds, c.cdsc⟩).2.1 jacs)).calls + 1⟩ := by
  rfl

theorem runPasses_char (fJ : List (List Jet) → Option (List Jet)) (S : Nat) (ss : List Nat)
    (acts : List Bool) (flatP : List ℚ) (ij : List (Nat × Nat)) (bs : List Nat) (m : Nat) :
    ∀ fuel t0 c res jacs, (⟨0, c.cds, c.cdsc⟩ : Cursor) = passState S ss acts t0 →
    ((runPasses fJ S ss acts flatP ij bs m fuel c res jacs).ok = true →
        (runPasses fJ S ss acts flatP ij bs m fuel c res jacs).calls = fuel) ∧
    ((runPasses fJ S ss acts flatP ij bs m fuel c res jacs).ok = false →
        (runPasses fJ S ss acts flatP ij bs m fuel c res jacs).residuals = res ∧
        1 ≤ (runPasses fJ S ss acts flatP ij bs m fuel c res jacs).calls ∧
        (runPasses fJ S ss acts flatP ij bs m fuel c res jacs).calls ≤ fuel ∧
        fJ (passInputs S ss acts flatP bs
          (t0 + (runPasses fJ S ss acts flatP ij bs m fuel c res jacs).calls - 1)) = none ∧
        ∀ u, u < (runPasses fJ S ss acts flatP ij bs m fuel c res jacs).calls - 1 →
          fJ (passInputs S ss acts flatP bs (t0 + u)) ≠ none) := by
  intro fuel
  induction fuel with
  | zero =>
    intro t0 c res jacs hc
    exact ⟨fun _ => rfl, fun h => absurd h (by simp [runPasses])⟩
  | succ fuel ih =>
    intro t0 c res jacs hc
    have hpi : groupBlocks bs (mkInputs S flatP
        (strideAssign S ss acts 0 ⟨0, c.cds, c.cdsc⟩).2.1) =
        passInputs S ss acts flatP bs t0 := by
      rw [hc, passInputs, passAssign]
    cases hout : fJ (groupBlocks bs (mkInputs S flatP
        (strideAssign S ss acts 0 ⟨0, c.cds, c.cdsc⟩).2.1)) with
    | none =>
      have hred : runPasses fJ S ss acts flatP ij bs m (fuel + 1) c res jacs =
          ⟨false, res, jacs, 1⟩ := by
        rw [runPasses_cons, hout]
      rw [hred]
      refine ⟨fun h => absurd h (by simp), fun _ =>
        ⟨rfl, Nat.le_refl _, by show (1 : Nat) ≤ fuel + 1; omega, ?_, ?_⟩⟩
      · show fJ (passInputs S ss acts flatP bs (t0 + 1 - 1)) = none
        rw [Nat.add_sub_cancel, ← hpi, hout]
      · intro u hu
        have hu2 : u < 1 - 1 := hu
        exact absurd hu2 (by omega)
    | some out =>
      have hred : runPasses fJ S ss acts flatP ij bs m (fuel + 1) c res jacs =
          ⟨(runPasses fJ S ss acts flatP ij bs m fuel
              (strideAssign S ss acts 0 ⟨0, c.cds, c.cdsc⟩).1
              (if fuel = 0 then writeVals m (out.map Jet.a) else res)
              (scatter m bs out ij (strideAssign S ss acts 0 ⟨0, c.cds, c.cdsc⟩).2.1 jacs)).ok,
            (runPasses fJ S ss acts flatP ij bs m fuel
              (strideAssign S ss acts 0 ⟨0, c.cds, c.cdsc⟩).1
              (if fuel = 0 then writeVals m (out.map Jet.a) else res)
              (scatter m bs out ij (strideAssign S ss acts 0 ⟨0, c.cds, c.cdsc⟩).2.1 jacs)).residuals,
            (runPasses fJ S ss acts flatP ij bs m fuel
              (strideAssign S ss acts 0 ⟨0, c.cds, c.cdsc⟩).1
              (if fuel = 0 then writeVals m (out.map Jet.a) else res)
              (scatter m bs out ij (strideAssign S ss acts 0 ⟨0, c.cds, c.cdsc⟩).2.1 jacs)).jacs,
            (runPasses fJ S ss acts flatP ij bs m fuel
              (strideAssign S ss acts 0 ⟨0, c.cds, c.cdsc⟩).1
              (if fuel = 0 then writeVals m (out.map Jet.a) else res)
              (scatter m bs out ij (strideAssign S ss acts 0 ⟨0, c.cds, c.cdsc⟩).2.1 jacs)).calls + 1⟩ := by
        rw [runPasses_cons, hout]
      rw [hred]
      dsimp only
      have hc2 : (⟨0, (strideAssign S ss acts 0 ⟨0, c.cds, c.cdsc⟩).1.cds,
          (strideAssign S ss acts 0 ⟨0, c.cds, c.cdsc⟩).1.cdsc⟩ : Cursor) =
          passState S ss acts (t0 + 1) := by
        show _ = (⟨0, (strideAssign S ss acts 0 (passState S ss acts t0)).1.cds,
          (strideAssign S ss acts 0 (passState S ss acts t0)).1.cdsc⟩ : Cursor)
        rw [hc]
      have IH := ih (t0 + 1) (strideAssign S ss acts 0 ⟨0, c.cds, c.cdsc⟩).1
        (if fuel = 0 then writeVals m (out.map Jet.a) else res)
        (scatter m bs out ij (strideAssign S ss acts 0 ⟨0, c.cds, c.cdsc⟩).2.1 jacs) hc2
      constructor
      · intro h
        rw [IH.1 h]
      · intro h
        have hfuel : fuel ≠ 0 := by
          intro h0
          subst h0
          exact absurd h (by simp [runPasses])
        have hr := IH.2 h
        rw [if_neg hfuel] at hr ⊢
        refine ⟨hr.1, by have := hr.2.1; omega, by have := hr.2.2.1; omega, ?_, ?_⟩
        · have he : t0 + ((runPasses fJ S ss acts flatP ij bs m fuel
              (strideAssign S ss acts 0 ⟨0, c.cds, c.cdsc⟩).1 res
              (scatter m bs out ij (strideAssign S ss acts 0 ⟨0, c.cds, c.cdsc⟩).2.1 jacs)).calls + 1)
              - 1 = t0 + 1 + (runPasses fJ S ss acts flatP ij bs m fuel
              (strideAssign S ss acts 0 ⟨0, c.cds, c.cdsc⟩).1 res
              (scatter m bs out ij (strideAssign S ss acts 0 ⟨0, c.cds, c.cdsc⟩).2.1 jacs)).calls - 1 := by
            have h1 := hr.2.1
            omega
          rw [he]
          exact hr.2.2.2.1
        · intro u hu
          cases u with
          | zero =>
            rw [Nat.add_zero, ← hpi, hout]
            simp
          | succ u =>
            have hu2 : u < (runPasses fJ S ss acts flatP ij bs m fuel
                (strideAssign S ss acts 0 ⟨0, c.cds, c.cdsc⟩).1 res
                (scatter m bs out ij (strideAssign S ss acts 0 ⟨0, c.cds, c.cdsc⟩).2.1 jacs)).calls - 1 := by
              omega
            have hnext := hr.2.2.2.2 u hu2
            have he : t0 + 1 + u = t0 + (u + 1) := by omega
            rw [he] at hnext
            exact hnext

/-! ### Residual values only depend on the primal inputs -/

theorem range_map_getD_self (l : List ℚ) (n : Nat) (h : l.length = n) :
    (List.range n).map (fun j => l.getD j 0) = l := by
  apply List.ext_getElem
  · simp [h]
  · intro i h1 h2
    rw [List.getElem_map, List.getElem_range]
    rw [List.getD_eq_getElem?_getD, List.getElem?_eq_getElem h2]
    rfl

theorem blockPrimals_groupBlocks (bs : List Nat) : ∀ (js : List Jet),
    blockPrimals (groupBlocks bs js) = groupVals bs (js.map Jet.a) := by
  induction bs with
  | nil => intro js; rfl
  | cons b bs ih =>
    intro js
    rw [groupBlocks, groupVals, blockPrimals, List.map_cons, ← List.map_take, ← List.map_drop,
      ← ih (js.drop b)]
    rfl

theorem groupVals_flatParams (bs : List Nat) : ∀ (ps : List (List ℚ)),
    ps.length = bs.length → (∀ i, i < bs.length → (ps.getD i []).length = bs.getD i 0) →
    groupVals bs (flatParams bs ps) = ps := by
  induction bs with
  | nil =>
    intro ps h1 _
    cases ps with
    | nil => rfl
    | cons p ps => simp at h1
  | cons b bs ih =>
    intro ps h1 h2
    cases ps with
    | nil => simp at h1
    | cons p ps =>
      have hp : p.length = b := by
        have := h2 0 (by simp)
        simpa using this
      rw [flatParams, groupVals]
      have hhead : (List.range b).map (fun j => ((p :: ps).getD 0 []).getD j 0) ++
          flatParams bs ((p :: ps).drop 1) =
          (List.range b).map (fun j => p.getD j 0) ++ flatParams bs ps := rfl
      rw [hhead]
      have hlen : ((List.range b).map (fun j => p.getD j 0)).length = b := by simp
      congr 1
      · rw [List.take_left' hlen]
        exact range_map_getD_self p b hp
      · rw [List.drop_left' hlen]
        refine ih ps (by simpa using h1) ?_
        intro i hi
        have := h2 (i + 1) (by simpa using Nat.succ_lt_succ hi)
        simpa using this

theorem blockPrimals_inputs (S : Nat) (bs : List Nat) (ps : List (List ℚ))
    (asg : List (Option Nat)) (h1 : ps.length = bs.length)
    (h2 : ∀ i, i < bs.length → (ps.getD i []).length = bs.getD i 0) :
    blockPrimals (groupBlocks bs (mkInputs S (flatParams bs ps) asg)) = ps := by
  rw [blockPrimals_groupBlocks, map_a_mkInputs]
  exact groupVals_flatParams bs ps h1 h2

theorem mem_groupBlocks (bs : List Nat) : ∀ (js : List Jet) (bl : List Jet),
    bl ∈ groupBlocks bs js → ∀ jet ∈ bl, jet ∈ js := by
  induction bs with
  | nil => intro js bl h; simp [groupBlocks] at h
  | cons b bs ih =>
    intro js bl h jet hjet
    rw [groupBlocks, List.mem_cons] at h
    rcases h with h | h
    · exact List.mem_of_mem_take (h ▸ hjet)
    · exact List.mem_of_mem_drop (ih (js.drop b) bl h jet hjet)

theorem v_length_inputs (S : Nat) (flatP : List ℚ) (asg : List (Option Nat)) (bs : List Nat) :
    ∀ bl ∈ groupBlocks bs (mkInputs S flatP asg), ∀ jet ∈ bl, jet.v.length = S := by
  intro bl hbl jet hjet
  exact v_length_mkInputs S flatP asg jet (mem_groupBlocks bs _ bl hbl jet hjet)

theorem runPasses_primal (fJ : List (List Jet) → Option (List Jet))
    (fS : List (List ℚ) → Option (List ℚ)) (params : List (List ℚ)) (S : Nat) (ss : List Nat)
    (acts : List Bool) (flatP : List ℚ) (ij : List (Nat × Nat)) (bs : List Nat) (m : Nat)
    (hpc : PrimalConsistentAt fJ fS params)
    (hprim : ∀ asg, blockPrimals (groupBlocks bs (mkInputs S flatP asg)) = params) :
    ∀ fuel c res jacs, 0 < fuel →
    ((fS params = none →
        (runPasses fJ S ss acts flatP ij bs m fuel c res jacs).ok = false ∧
        (runPasses fJ S ss acts flatP ij bs m fuel c res jacs).residuals = res) ∧
     (∀ rs, fS params = some rs →
        (runPasses fJ S ss acts flatP ij bs m fuel c res jacs).ok = true ∧
        (runPasses fJ S ss acts flatP ij bs m fuel c res jacs).residuals = writeVals m rs)) := by
  intro fuel
  induction fuel with
  | zero => intro c res jacs h0; omega
  | succ fuel ih =>
    intro c res jacs _
    have hcons := hpc (groupBlocks bs (mkInputs S flatP
      (strideAssign S ss acts 0 ⟨0, c.cds, c.cdsc⟩).2.1))
      (hprim (strideAssign S ss acts 0 ⟨0, c.cds, c.cdsc⟩).2.1)
    constructor
    · intro hnone
      rw [hnone] at hcons
      have hJnone : fJ (groupBlocks bs (mkInputs S flatP
          (strideAssign S ss acts 0 ⟨0, c.cds, c.cdsc⟩).2.1)) = none := by
        cases hJ : fJ (groupBlocks bs (mkInputs S flatP
            (strideAssign S ss acts 0 ⟨0, c.cds, c.cdsc⟩).2.1)) with
        | none => rfl
        | some out => rw [hJ] at hcons; simp at hcons
      have hred : runPasses fJ S ss acts flatP ij bs m (fuel + 1) c res jacs =
          ⟨false, res, jacs, 1⟩ := by
        rw [runPasses_cons, hJnone]
      rw [hred]
      exact ⟨rfl, rfl⟩
    · intro rs hsome
      rw [hsome] at hcons
      cases hJ : fJ (groupBlocks bs (mkInputs S flatP
          (strideAssign S ss acts 0 ⟨0, c.cds, c.cdsc⟩).2.1)) with
      | none => rw [hJ] at hcons; simp at hcons
      | some out =>
        rw [hJ] at hcons
        have houta : out.map Jet.a = rs := by
          simpa using hcons
        have hred : runPasses fJ S ss acts flatP ij bs m (fuel + 1) c res jacs =
            ⟨(runPasses fJ S ss acts flatP ij bs m fuel
                (strideAssign S ss acts 0 ⟨0, c.cds, c.cdsc⟩).1
                (if fuel = 0 then writeVals m (out.map Jet.a) else res)
                (scatter m bs out ij (strideAssign S ss acts 0 ⟨0, c.cds, c.cdsc⟩).2.1 jacs)).ok,
              (runPasses fJ S ss acts flatP ij bs m fuel
                (strideAssign S ss acts 0 ⟨0, c.cds, c.cdsc⟩).1
                (if fuel = 0 then writeVals m (out.map Jet.a) else res)
                (scatter m bs out ij (strideAssign S ss acts 0 ⟨0, c.cds, c.cdsc⟩).2.1 jacs)).residuals,
              (runPasses fJ S ss acts flatP ij bs m fuel
                (strideAssign S ss acts 0 ⟨0, c.cds, c.cdsc⟩).1
                (if fuel = 0 then writeVals m (out.map Jet.a) else res)
                (scatter m bs out ij (strideAssign S ss acts 0 ⟨0, c.cds, c.cdsc⟩).2.1 jacs)).jacs,
              (runPasses fJ S ss acts flatP ij bs m fuel
                (strideAssign S ss acts 0 ⟨0, c.cds, c.cdsc⟩).1
                (if fuel = 0 then writeVals m (out.map Jet.a) else res)
                (scatter m bs out ij (strideAssign S ss acts 0 ⟨0, c.cds, c.cdsc⟩).2.1 jacs)).calls + 1⟩ := by
          rw [runPasses_cons, hJ]
        rw [hred]
        dsimp only
        cases hfuel : fuel with
        | zero =>
          rw [if_pos rfl, houta]
          exact ⟨rfl, rfl⟩
        | succ fuel2 =>
          rw [if_neg (by omega)]
          have IH := (ih (strideAssign S ss acts 0 ⟨0, c.cds, c.cdsc⟩).1 res
            (scatter m bs out ij (strideAssign S ss acts 0 ⟨0, c.cds, c.cdsc⟩).2.1 jacs)
            (by omega)).2 rs hsome
          rw [hfuel] at IH
          exact IH

/-! ### The scatter loop, entry by entry -/

theorem col_decomp_unique (bsi j j0 k k0 : Nat) (hbsi : 0 < bsi) (hj : j < bsi) (hj0 : j0 < bsi)
    (h : k * bsi + j = k0 * bsi + j0) : k = k0 ∧ j = j0 := by
  have h1 : (k * bsi + j) % bsi = j := by
    rw [Nat.add_comm, Nat.add_mul_mod_self_right, Nat.mod_eq_of_lt hj]
  have h2 : (k0 * bsi + j0) % bsi = j0 := by
    rw [Nat.add_comm, Nat.add_mul_mod_self_right, Nat.mod_eq_of_lt hj0]
  have hjj : j = j0 := by rw [← h1, ← h2, h]
  subst hjj
  have hk : k * bsi = k0 * bsi := by omega
  exact ⟨Nat.eq_of_mul_eq_mul_right hbsi hk, rfl⟩

theorem scatterPos_succ (m bsi : Nat) (out : List Jet) (j d : Nat) (buf : List ℚ) :
    scatterPos (m + 1) bsi out j d buf =
      (scatterPos m bsi out j d buf).set (m * bsi + j) ((out.getD m zeroJet).v.getD d 0) := by
  rw [scatterPos, scatterPos, List.range_succ, List.foldl_append]
  rfl

theorem scatterPos_length (bsi : Nat) (out : List Jet) (j d : Nat) :
    ∀ m (buf : List ℚ), (scatterPos m bsi out j d buf).length = buf.length := by
  intro m
  induction m with
  | zero => intro buf; rfl
  | succ m ih =>
    intro buf
    rw [scatterPos_succ, List.length_set, ih]

theorem scatterPos_getD_ne (bsi : Nat) (out : List Jet) (j d : Nat) :
    ∀ m (buf : List ℚ) (off : Nat), (∀ k, k < m → off ≠ k * bsi + j) →
    (scatterPos m bsi out j d buf).getD off 0 = buf.getD off 0 := by
  intro m
  induction m with
  | zero => intro buf off _; rfl
  | succ m ih =>
    intro buf off hoff
    rw [scatterPos_succ, getD_set, if_neg, ih buf off (fun k hk => hoff k (by omega))]
    intro hc
    exact hoff m (by omega) hc.1.symm

theorem scatterPos_getD_eq (bsi : Nat) (out : List Jet) (j d : Nat) (hbsi : 0 < bsi)
    (hj : j < bsi) :
    ∀ m (buf : List ℚ) (k0 off : Nat), k0 < m → off = k0 * bsi + j → off < buf.length →
    (scatterPos m bsi out j d buf).getD off 0 = (out.getD k0 zeroJet).v.getD d 0 := by
  intro m
  induction m with
  | zero => intro buf k0 off h _ _; omega
  | succ m ih =>
    intro buf k0 off hk0 hoff hlen
    rw [scatterPos_succ, getD_set]
    rcases Nat.lt_or_ge k0 m with hlt | hge
    · rw [if_neg, ih buf k0 off hlt hoff hlen]
      intro hc
      rcases col_decomp_unique bsi j j k0 m hbsi hj hj (by omega) with ⟨hke, _⟩
      omega
    · have hke : k0 = m := by omega
      subst hke
      rw [if_pos ⟨hoff.symm, by rw [scatterPos_length]; exact hlen⟩]

theorem scatter_untouched (m : Nat) (bs : List Nat) (out : List Jet) :
    ∀ (ij : List (Nat × Nat)) (asg : List (Option Nat)) (jacs : List (List ℚ)) (i0 off : Nat),
    (∀ n, n < ij.length → (asg.getD n none).isSome = true →
        (ij.getD n (0, 0)).1 = i0 → ∀ k, k < m → off ≠ k * bs.getD i0 0 + (ij.getD n (0, 0)).2) →
    ((scatter m bs out ij asg jacs).getD i0 []).getD off 0 =
      (jacs.getD i0 []).getD off 0 := by
  intro ij
  induction ij with
  | nil => intro asg jacs i0 off _; rfl
  | cons hd rest ih =>
    intro asg jacs i0 off hno
    obtain ⟨i, j⟩ := hd
    cases asg with
    | nil => rfl
    | cons o asg2 =>
      cases o with
      | none =>
        rw [scatter]
        exact ih asg2 jacs i0 off (fun n hn hs h1 => hno (n + 1) (by simpa using hn) hs h1)
      | some d =>
        rw [scatter]
        rw [ih asg2 _ i0 off (fun n hn hs h1 => hno (n + 1) (by simpa using hn) hs h1)]
        by_cases hi : i = i0
        · rw [getD_set]
          by_cases hlen : i0 < jacs.length
          · rw [if_pos ⟨hi, hlen⟩, hi]
            exact scatterPos_getD_ne (bs.getD i0 0) out j d m _ off
              (fun k hk => by
                have := hno 0 (by simp) (by simp) (by simpa using hi) k hk
                simpa using this)
          · rw [if_neg (fun hc => hlen hc.2)]
        · rw [getD_set, if_neg (fun hc => hi hc.1)]

theorem scatter_write (m : Nat) (bs : List Nat) (out : List Jet) :
    ∀ (ij : List (Nat × Nat)) (asg : List (Option Nat)) (jacs : List (List ℚ))
      (n0 i0 j0 d k0 off : Nat),
    n0 < ij.length → ij.getD n0 (0, 0) = (i0, j0) → asg.getD n0 none = some d →
    (∀ n, n < ij.length → n ≠ n0 → (asg.getD n none).isSome = true →
        (ij.getD n (0, 0)).1 = i0 → (ij.getD n (0, 0)).2 ≠ j0) →
    (∀ n, n < ij.length → (asg.getD n none).isSome = true →
        (ij.getD n (0, 0)).2 < bs.getD (ij.getD n (0, 0)).1 0) →
    i0 < jacs.length → (jacs.getD i0 []).length = m * bs.getD i0 0 →
    k0 < m → off = k0 * bs.getD i0 0 + j0 → 0 < bs.getD i0 0 → j0 < bs.getD i0 0 →
    ((scatter m bs out ij asg jacs).getD i0 []).getD off 0 =
      (out.getD k0 zeroJet).v.getD d 0 := by
  intro ij
  induction ij with
  | nil => intro asg jacs n0 i0 j0 d k0 off h _ _ _ _ _ _ _ _ _ _; simp at h
  | cons hd rest ih =>
    intro asg jacs n0 i0 j0 d k0 off hn0 hij0 hasg0 hno hval hjlen hblen hk0 hoff hbsi hj0
    obtain ⟨i, j⟩ := hd
    cases asg with
    | nil => simp at hasg0
    | cons o asg2 =>
      cases n0 with
      | zero =>
        have hije : i0 = i ∧ j0 = j := by
          have hp : ((i, j) : Nat × Nat) = (i0, j0) := hij0
          exact ⟨(congrArg Prod.fst hp).symm, (congrArg Prod.snd hp).symm⟩
        obtain ⟨hie, hje⟩ := hije
        subst hie
        subst hje
        have hoe : o = some d := hasg0
        subst hoe
        rw [scatter]
        rw [scatter_untouched m bs out rest asg2 _ i0 off ?_]
        · rw [getD_set, if_pos ⟨rfl, hjlen⟩]
          apply scatterPos_getD_eq (bs.getD i0 0) out j0 d hbsi hj0 m _ k0 off hk0 hoff
          rw [hblen]
          have hmul : (k0 + 1) * bs.getD i0 0 ≤ m * bs.getD i0 0 :=
            Nat.mul_le_mul_right _ (by omega)
          have h2 : (k0 + 1) * bs.getD i0 0 = k0 * bs.getD i0 0 + bs.getD i0 0 := by
            rw [Nat.add_mul, Nat.one_mul]
          omega
        · intro n hn hs h1 k hk hoffc
          have hv := hval (n + 1) (by simpa using hn) hs
          rw [List.getD_cons_succ] at hv
          have hnj := hno (n + 1) (by simpa using hn) (by omega) hs
          rw [List.getD_cons_succ] at hnj
          rcases col_decomp_unique (bs.getD i0 0) (rest.getD n (0, 0)).2 j0 k k0 hbsi
            (h1 ▸ hv) hj0 (by omega) with ⟨_, hcol⟩
          exact hnj h1 hcol
      | succ n0 =>
        have hij0s : rest.getD n0 (0, 0) = (i0, j0) := hij0
        have hasg0s : asg2.getD n0 none = some d := hasg0
        cases o with
        | none =>
          rw [scatter]
          refine ih asg2 jacs n0 i0 j0 d k0 off (by simpa using hn0) hij0s hasg0s ?_ ?_
            hjlen hblen hk0 hoff hbsi hj0
          · intro n hn hne hs h1
            have := hno (n + 1) (by simpa using hn) (by omega) hs
            rw [List.getD_cons_succ] at this
            exact this h1
          · intro n hn hs
            have := hval (n + 1) (by simpa using hn) hs
            rw [List.getD_cons_succ] at this
            exact this
        | some d2 =>
          rw [scatter]
          refine ih asg2 _ n0 i0 j0 d k0 off (by simpa using hn0) hij0s hasg0s ?_ ?_
            (by rw [List.length_set]; exact hjlen) ?_ hk0 hoff hbsi hj0
          · intro n hn hne hs h1
            have := hno (n + 1) (by simpa using hn) (by omega) hs
            rw [List.getD_cons_succ] at this
            exact this h1
          · intro n hn hs
            have := hval (n + 1) (by simpa using hn) hs
            rw [List.getD_cons_succ] at this
            exact this
          · by_cases hi : i = i0
            · subst hi
              rw [getD_set, if_pos ⟨rfl, hjlen⟩, scatterPos_length]
              exact hblen
            · rw [getD_set, if_neg (fun hc => hi hc.1)]
              exact hblen

/-! ### Decoding flat positions into blocks -/

theorem blockStart_cons_succ (b : Nat) (bs : List Nat) (i : Nat) :
    blockStart (b :: bs) (i + 1) = b + blockStart bs i := by
  rw [blockStart, blockStart, List.take_succ_cons, List.sum_cons]

theorem posBlock_cons (b : Nat) (bs : List Nat) (p : Nat) :
    posBlock (b :: bs) p =
      if p < b then (0, p)
      else ((posBlock bs (p - b)).1 + 1, (posBlock bs (p - b)).2) := rfl

theorem posBlock_spec (bs : List Nat) : ∀ p, p < bs.sum →
    (posBlock bs p).1 < bs.length ∧ (posBlock bs p).2 < bs.getD (posBlock bs p).1 0 ∧
    blockStart bs (posBlock bs p).1 + (posBlock bs p).2 = p := by
  induction bs with
  | nil => intro p hp; simp at hp
  | cons b bs ih =>
    intro p hp
    rw [posBlock_cons]
    by_cases hpb : p < b
    · rw [if_pos hpb]
      exact ⟨by simp, hpb, by simp [blockStart]⟩
    · rw [if_neg hpb]
      have hp2 : p - b < bs.sum := by
        rw [List.sum_cons] at hp
        omega
      rcases ih (p - b) hp2 with ⟨h1, h2, h3⟩
      refine ⟨by simpa using Nat.succ_lt_succ h1, ?_, ?_⟩
      · rw [List.getD_cons_succ]
        exact h2
      · rw [blockStart_cons_succ]
        omega

theorem getD_flatIJFrom (bs : List Nat) : ∀ i0 p, p < bs.sum →
    (flatIJFrom bs i0).getD p (0, 0) = ((posBlock bs p).1 + i0, (posBlock bs p).2) := by
  induction bs with
  | nil => intro i0 p hp; simp at hp
  | cons b bs ih =>
    intro i0 p hp
    rw [flatIJFrom, posBlock_cons]
    by_cases hpb : p < b
    · rw [if_pos hpb, List.getD_append _ _ _ _ (by simpa using hpb),
        getD_range_map (fun j => (i0, j)) b p (0, 0) hpb]
      simp
    · rw [if_neg hpb]
      have hlen : ((List.range b).map (fun j => (i0, j))).length ≤ p := by simpa using hpb
      rw [List.getD_append_right _ _ _ _ hlen]
      have hp2 : p - b < bs.sum := by
        rw [List.sum_cons] at hp
        omega
      have hred : p - ((List.range b).map (fun j => (i0, j))).length = p - b := by simp
      rw [hred, ih (i0 + 1) (p - b) hp2]
      have : (posBlock bs (p - b)).1 + (i0 + 1) = (posBlock bs (p - b)).1 + 1 + i0 := by omega
      rw [this]

theorem getD_drop_one {α : Type} (l : List α) (n : Nat) (d : α) :
    (l.drop 1).getD n d = l.getD (n + 1) d := by
  cases l with
  | nil => rfl
  | cons x xs => rfl

theorem getD_flatActive (bs : List Nat) : ∀ (req : List Bool) p, p < bs.sum →
    (flatActive bs req).getD p false = req.getD (posBlock bs p).1 false := by
  induction bs with
  | nil => intro req p hp; simp at hp
  | cons b bs ih =>
    intro req p hp
    rw [flatActive, posBlock_cons]
    by_cases hpb : p < b
    · rw [if_pos hpb, List.getD_append _ _ _ _ (by simpa using hpb),
        getD_replicate _ _ _ _, if_pos hpb]
    · rw [if_neg hpb]
      have hlen : (List.replicate b (req.getD 0 false)).length ≤ p := by simpa using hpb
      rw [List.getD_append_right _ _ _ _ hlen]
      have hp2 : p - b < bs.sum := by
        rw [List.sum_cons] at hp
        omega
      have hred : p - (List.replicate b (req.getD 0 false)).length = p - b := by simp
      rw [hred, ih (req.drop 1) (p - b) hp2, getD_drop_one]

/-! ### Evaluating the directional-derivative pairing at one-hot seeds -/

theorem lin_cons (J : Nat → Nat → ℚ) (k d : Nat) (jet : Jet) (rest : List Jet) (p : Nat) :
    lin J k d (jet :: rest) p = jet.v.getD d 0 * J k p + lin J k d rest (p + 1) := rfl

theorem lin_zero (J : Nat → Nat → ℚ) (k d : Nat) :
    ∀ (jets : List Jet) (p0 : Nat),
    (∀ n, n < jets.length → (jets.getD n zeroJet).v.getD d 0 = 0) →
    lin J k d jets p0 = 0 := by
  intro jets
  induction jets with
  | nil => intro p0 _; rfl
  | cons jet rest ih =>
    intro p0 hz
    rw [lin_cons]
    have h0 : jet.v.getD d 0 = 0 := hz 0 (by simp)
    rw [h0, ih (p0 + 1) (fun n hn => hz (n + 1) (by simpa using hn))]
    ring

theorem lin_eval (J : Nat → Nat → ℚ) (k d : Nat) :
    ∀ (jets : List Jet) (p0 x0 : Nat), p0 ≤ x0 → x0 < p0 + jets.length →
    (∀ n, n < jets.length →
      (jets.getD n zeroJet).v.getD d 0 = if p0 + n = x0 then 1 else 0) →
    lin J k d jets p0 = J k x0 := by
  intro jets
  induction jets with
  | nil => intro p0 x0 h1 h2 _; simp at h2; omega
  | cons jet rest ih =>
    intro p0 x0 h1 h2 hcoef
    rw [lin_cons]
    by_cases he : p0 = x0
    · subst he
      have h0 : jet.v.getD d 0 = 1 := by
        have := hcoef 0 (by simp)
        simpa using this
      rw [h0, lin_zero J k d rest (p0 + 1) ?_]
      · ring
      · intro n hn
        have := hcoef (n + 1) (by simpa using hn)
        rw [if_neg (by omega)] at this
        exact this
    · have h0 : jet.v.getD d 0 = 0 := by
        have := hcoef 0 (by simp)
        rw [if_neg (by omega)] at this
        exact this
      rw [h0, ih (p0 + 1) x0 (by omega) (by simp at h2 ⊢; omega) ?_]
      · ring
      · intro n hn
        have := hcoef (n + 1) (by simpa using hn)
        have he2 : p0 + (n + 1) = p0 + 1 + n := by omega
        rw [he2] at this
        exact this

theorem groupBlocks_flatten (bs : List Nat) : ∀ (js : List Jet), js.length = bs.sum →
    (groupBlocks bs js).flatten = js := by
  induction bs with
  | nil =>
    intro js h
    cases js with
    | nil => rfl
    | cons x xs => simp at h
  | cons b bs ih =>
    intro js h
    rw [groupBlocks, List.flatten_cons, ih (js.drop b) ?_, List.take_append_drop]
    rw [List.length_drop, h, List.sum_cons]
    omega

theorem map_a_linearOutputs (J : Nat → Nat → ℚ) (S : Nat) (blocks : List (List Jet))
    (rs : List ℚ) : (linearOutputs J S blocks rs).map Jet.a = rs := by
  rw [linearOutputs, List.map_map]
  show rs.enum.map (fun kr => kr.2) = rs
  have h : (fun kr : Nat × ℚ => kr.2) = Prod.snd := rfl
  rw [h]
  exact List.enum_map_snd rs

theorem getD_linearOutputs (J : Nat → Nat → ℚ) (S : Nat) (blocks : List (List Jet))
    (rs : List ℚ) (k0 : Nat) (hk : k0 < rs.length) :
    (linearOutputs J S blocks rs).getD k0 zeroJet =
      ⟨rs.getD k0 0, (List.range S).map (fun d => lin J k0 d blocks.flatten 0)⟩ := by
  rw [linearOutputs, List.getD_eq_getElem?_getD, List.getElem?_map, List.getElem?_enum,
    List.getElem?_eq_getElem hk]
  rw [List.getD_eq_getElem?_getD, List.getElem?_eq_getElem hk]
  rfl

/-! ### More scatter bookkeeping -/

theorem scatter_length (m : Nat) (bs : List Nat) (out : List Jet) :
    ∀ (ij : List (Nat × Nat)) (asg : List (Option Nat)) (jacs : List (List ℚ)),
    (scatter m bs out ij asg jacs).length = jacs.length := by
  intro ij
  induction ij with
  | nil => intro asg jacs; rfl
  | cons hd rest ih =>
    intro asg jacs
    obtain ⟨i, j⟩ := hd
    cases asg with
    | nil => rfl
    | cons o asg2 =>
      cases o with
      | none => rw [scatter]; exact ih asg2 jacs
      | some d => rw [scatter, ih asg2 _, List.length_set]

theorem scatter_block_length (m : Nat) (bs : List Nat) (out : List Jet) :
    ∀ (ij : List (Nat × Nat)) (asg : List (Option Nat)) (jacs : List (List ℚ)) (i0 : Nat),
    ((scatter m bs out ij asg jacs).getD i0 []).length = (jacs.getD i0 []).length := by
  intro ij
  induction ij with
  | nil => intro asg jacs i0; rfl
  | cons hd rest ih =>
    intro asg jacs i0
    obtain ⟨i, j⟩ := hd
    cases asg with
    | nil => rfl
    | cons o asg2 =>
      cases o with
      | none => rw [scatter]; exact ih asg2 jacs i0
      | some d =>
        rw [scatter, ih asg2 _ i0]
        by_cases hi : i = i0
        · rw [getD_set]
          by_cases hlen : i0 < jacs.length
          · rw [if_pos ⟨hi, hlen⟩, scatterPos_length, hi]
          · rw [if_neg (fun hc => hlen hc.2)]
        · rw [getD_set, if_neg (fun hc => hi hc.1)]

theorem scatter_block_unchanged (m : Nat) (bs : List Nat) (out : List Jet) :
    ∀ (ij : List (Nat × Nat)) (asg : List (Option Nat)) (jacs : List (List ℚ)) (i0 : Nat),
    (∀ n, n < ij.length → (asg.getD n none).isSome = true → (ij.getD n (0, 0)).1 ≠ i0) →
    (scatter m bs out ij asg jacs).getD i0 [] = jacs.getD i0 [] := by
  intro ij
  induction ij with
  | nil => intro asg jacs i0 _; rfl
  | cons hd rest ih =>
    intro asg jacs i0 hno
    obtain ⟨i, j⟩ := hd
    cases asg with
    | nil => rfl
    | cons o asg2 =>
      cases o with
      | none =>
        rw [scatter]
        exact ih asg2 jacs i0 (fun n hn hs => hno (n + 1) (by simpa using hn) hs)
      | some d =>
        rw [scatter, ih asg2 _ i0 (fun n hn hs => hno (n + 1) (by simpa using hn) hs)]
        have hne : i ≠ i0 := hno 0 (by simp) (by simp)
        rw [getD_set, if_neg (fun hc => hne hc.1)]

theorem posBlock_blockStart (bs : List Nat) (hpos : ∀ b ∈ bs, 0 < b) :
    ∀ i0 j0, i0 < bs.length → j0 < bs.getD i0 0 →
    posBlock bs (blockStart bs i0 + j0) = (i0, j0) := by
  induction bs with
  | nil => intro i0 j0 h _; simp at h
  | cons b bs ih =>
    intro i0 j0 hi0 hj0
    cases i0 with
    | zero =>
      have hb : blockStart (b :: bs) 0 = 0 := rfl
      rw [hb, Nat.zero_add, posBlock_cons, if_pos (by simpa using hj0)]
    | succ i0 =>
      rw [blockStart_cons_succ, posBlock_cons, if_neg (by omega)]
      have hred : b + blockStart bs i0 + j0 - b = blockStart bs i0 + j0 := by omega
      rw [hred, ih (fun x hx => hpos x (List.mem_cons_of_mem b hx)) i0 j0
        (by simpa using hi0) (by simpa using hj0)]

/-! ### The output jets of a linearized functor at the seeded inputs -/

theorem out_val_at (J : Nat → Nat → ℚ) (S : Nat) (bs : List Nat) (full : List Bool)
    (flatP : List ℚ) (rs : List ℚ) (B : Nat)
    (hfp : flatP.length = bs.sum) (hfull : full.length = bs.sum)
    (k0 x : Nat) (hk0 : k0 < rs.length) (hx : x < full.length)
    (hact : full.getD x false = true) (hB1 : B ≤ rank full x) (hB2 : rank full x < B + S) :
    ((linearOutputs J S (groupBlocks bs (mkInputs S flatP
        ((List.range full.length).map (seedSpec full S B)))) rs).getD k0 zeroJet).v.getD
      (rank full x - B) 0 = J k0 x := by
  rw [getD_linearOutputs J S _ rs k0 hk0]
  show ((List.range S).map fun d => lin J k0 d
    (groupBlocks bs (mkInputs S flatP ((List.range full.length).map (seedSpec full S B)))).flatten 0).getD
      (rank full x - B) 0 = J k0 x
  rw [getD_range_map _ S (rank full x - B) 0 (by omega)]
  rw [groupBlocks_flatten bs _ (by rw [length_mkInputs]; exact hfp)]
  apply lin_eval J k0 (rank full x - B) (mkInputs S flatP _) 0 x (Nat.zero_le x)
    (by rw [length_mkInputs, hfp, ← hfull]; omega)
  intro n hn
  rw [length_mkInputs] at hn
  rw [getD_mkInputs S flatP _ n hn]
  have hnN : n < full.length := by omega
  rw [getD_range_map (seedSpec full S B) full.length n none hnN]
  show (oneHot S (seedSpec full S B n)).getD (rank full x - B) 0 = _
  by_cases hnx : n = x
  · subst hnx
    rw [seedSpec, if_pos ⟨hact, hB1, hB2⟩, getD_oneHot_some S _ _ (by omega), if_pos rfl,
      if_pos (by omega)]
  · rw [if_neg (by omega)]
    rw [seedSpec]
    by_cases hcond : full.getD n false = true ∧ B ≤ rank full n ∧ rank full n < B + S
    · rw [if_pos hcond]
      have hrne : rank full n ≠ rank full x := by
        rcases Nat.lt_or_ge n x with hlt | hge
        · have := rank_lt_of_active full hcond.1 hlt
          omega
        · have hgt : x < n := by omega
          have := rank_lt_of_active full hact hgt
          omega
      rw [getD_oneHot_some S _ _ (by omega), if_neg (by omega)]
    · rw [if_neg hcond, getD_oneHot_none]

/-! ### One stride pass updates the jacobian buffers by one seeding window -/

theorem blockStart_add_lt (bs : List Nat) : ∀ i0 j0, i0 < bs.length → j0 < bs.getD i0 0 →
    blockStart bs i0 + j0 < bs.sum := by
  induction bs with
  | nil => intro i0 j0 h _; simp at h
  | cons b bs ih =>
    intro i0 j0 hi0 hj0
    cases i0 with
    | zero =>
      have hb : blockStart (b :: bs) 0 = 0 := rfl
      rw [hb, List.sum_cons]
      have : j0 < b := by simpa using hj0
      omega
    | succ i0 =>
      rw [blockStart_cons_succ, List.sum_cons]
      have := ih i0 j0 (by simpa using hi0) (by simpa using hj0)
      omega

theorem getD_flatIJ (bs : List Nat) (p : Nat) (hp : p < bs.sum) :
    (flatIJ bs).getD p (0, 0) = posBlock bs p := by
  rw [flatIJ, getD_flatIJFrom bs 0 p hp, Nat.add_zero]

theorem seedSpec_isSome_iff (full : List Bool) (S B x : Nat) :
    (seedSpec full S B x).isSome = true ↔
      (full.getD x false = true ∧ B ≤ rank full x ∧ rank full x < B + S) := by
  rw [seedSpec]
  by_cases h : full.getD x false = true ∧ B ≤ rank full x ∧ rank full x < B + S
  · rw [if_pos h]
    simp only [Option.isSome_some]
    exact ⟨fun _ => h, fun _ => by simp⟩
  · rw [if_neg h]
    simp only [Option.isSome_none]
    exact ⟨fun hc => absurd hc (by simp), fun hc => absurd hc h⟩

theorem seedSpec_eq_some (full : List Bool) (S B x : Nat)
    (h : full.getD x false = true ∧ B ≤ rank full x ∧ rank full x < B + S) :
    seedSpec full S B x = some (rank full x - B) := by
  rw [seedSpec, if_pos h]

theorem jacsInv_step (J : Nat → Nat → ℚ) (S : Nat) (bs : List Nat) (req : List Bool)
    (m : Nat) (out : List Jet) (t : Nat) (jacs0 jc : List (List ℚ))
    (hpos : ∀ b ∈ bs, 0 < b)
    (hinv : JacsInv J (flatActive bs req) bs req m S t jacs0 jc)
    (hout : ∀ k0 x, k0 < m → x < (flatActive bs req).length →
        (flatActive bs req).getD x false = true →
        t * S ≤ rank (flatActive bs req) x → rank (flatActive bs req) x < t * S + S →
        (out.getD k0 zeroJet).v.getD (rank (flatActive bs req) x - t * S) 0 = J k0 x) :
    JacsInv J (flatActive bs req) bs req m S (t + 1) jacs0
      (scatter m bs out (flatIJ bs)
        ((List.range (flatActive bs req).length).map (seedSpec (flatActive bs req) S (t * S))) jc) := by
  have hN : (flatActive bs req).length = bs.sum := length_flatActive bs req
  have hijlen : (flatIJ bs).length = bs.sum := length_flatIJFrom bs 0
  have hts : (t + 1) * S = t * S + S := by
    rw [Nat.add_mul, Nat.one_mul]
  have hasg : ∀ n, n < bs.sum →
      ((List.range (flatActive bs req).length).map
        (seedSpec (flatActive bs req) S (t * S))).getD n none =
        seedSpec (flatActive bs req) S (t * S) n := by
    intro n hn
    exact getD_range_map _ _ n none (by omega)
  constructor
  · rw [scatter_length]
    exact hinv.1
  intro i0 hi0
  have hbsi : 0 < bs.getD i0 0 := by
    have hmem : bs.getD i0 0 ∈ bs := by
      rw [List.getD_eq_getElem?_getD, List.getElem?_eq_getElem hi0]
      exact List.getElem_mem _
    exact hpos _ hmem
  constructor
  · intro hreq
    rw [scatter_block_unchanged m bs out _ _ jc i0 ?_]
    · exact (hinv.2 i0 hi0).1 hreq
    · intro n hn hs
      rw [hijlen] at hn
      rw [hasg n hn] at hs
      rcases (seedSpec_isSome_iff _ _ _ _).mp hs with ⟨hact, _, _⟩
      rw [getD_flatIJ bs n hn]
      intro hc
      rw [getD_flatActive bs req n hn, hc, hreq] at hact
      exact absurd hact (by simp)
  · intro hreq
    refine ⟨by rw [scatter_block_length]; exact ((hinv.2 i0 hi0).2 hreq).1, ?_⟩
    intro k0 j0 hk0 hj0
    have hx0 : blockStart bs i0 + j0 < bs.sum := blockStart_add_lt bs i0 j0 hi0 hj0
    have hpbx : posBlock bs (blockStart bs i0 + j0) = (i0, j0) :=
      posBlock_blockStart bs hpos i0 j0 hi0 hj0
    have hactx : (flatActive bs req).getD (blockStart bs i0 + j0) false = true := by
      rw [getD_flatActive bs req _ hx0, hpbx]
      exact hreq
    have huntouched : ¬(t * S ≤ rank (flatActive bs req) (blockStart bs i0 + j0) ∧
        rank (flatActive bs req) (blockStart bs i0 + j0) < t * S + S) →
        ((scatter m bs out (flatIJ bs)
            ((List.range (flatActive bs req).length).map
              (seedSpec (flatActive bs req) S (t * S))) jc).getD i0 []).getD
          (k0 * bs.getD i0 0 + j0) 0 = (jc.getD i0 []).getD (k0 * bs.getD i0 0 + j0) 0 := by
      intro hwin
      apply scatter_untouched
      intro n hn hs h1 k hk hoffc
      rw [hijlen] at hn
      rw [hasg n hn] at hs
      rcases (seedSpec_isSome_iff _ _ _ _).mp hs with ⟨hactn, hw1, hw2⟩
      rw [getD_flatIJ bs n hn] at h1 hoffc
      have hps := posBlock_spec bs n (by omega)
      have hcn : (posBlock bs n).2 < bs.getD i0 0 := by
        have h2 := hps.2.1
        rw [h1] at h2
        exact h2
      rcases col_decomp_unique (bs.getD i0 0) j0 (posBlock bs n).2 k0 k hbsi hj0 hcn hoffc
        with ⟨hke, hje⟩
      have hpn : posBlock bs n = (i0, j0) := by
        rcases hpb : posBlock bs n with ⟨a, b2⟩
        rw [hpb] at h1 hje
        simp only at h1 hje
        rw [h1, ← hje]
      have hnx : n = blockStart bs i0 + j0 := by
        have h3 := hps.2.2
        rw [hpn] at h3
        exact h3.symm
      rw [hnx] at hw1 hw2
      exact hwin ⟨hw1, hw2⟩
    by_cases hwin : t * S ≤ rank (flatActive bs req) (blockStart bs i0 + j0) ∧
        rank (flatActive bs req) (blockStart bs i0 + j0) < t * S + S
    · have hw := scatter_write m bs out (flatIJ bs)
        ((List.range (flatActive bs req).length).map (seedSpec (flatActive bs req) S (t * S))) jc
        (blockStart bs i0 + j0) i0 j0
        (rank (flatActive bs req) (blockStart bs i0 + j0) - t * S) k0 (k0 * bs.getD i0 0 + j0)
        (by omega) (by rw [getD_flatIJ bs _ hx0, hpbx]) ?_ ?_ ?_ (by rw [hinv.1]; exact hi0)
        ((hinv.2 i0 hi0).2 hreq).1 hk0 rfl hbsi hj0
      · rw [hw, hout k0 (blockStart bs i0 + j0) hk0 (by omega) hactx hwin.1 hwin.2,
          if_pos (by omega)]
      · rw [hasg _ (by omega)]
        exact seedSpec_eq_some _ _ _ _ ⟨hactx, hwin.1, hwin.2⟩
      · intro n hn hne hs h1
        rw [hijlen] at hn
        rw [hasg n hn] at hs
        rw [getD_flatIJ bs n hn] at h1 ⊢
        intro hje
        have hps := posBlock_spec bs n (by omega)
        have hpn : posBlock bs n = (i0, j0) := by
          rcases hpb : posBlock bs n with ⟨a, b2⟩
          rw [hpb] at h1 hje
          simp only at h1 hje
          rw [h1, hje]
        have h3 := hps.2.2
        rw [hpn] at h3
        exact hne h3.symm
      · intro n hn hs
        rw [hijlen] at hn
        rw [getD_flatIJ bs n hn]
        exact (posBlock_spec bs n (by omega)).2.1
    · rw [huntouched hwin]
      rw [((hinv.2 i0 hi0).2 hreq).2 k0 j0 hk0 hj0]
      by_cases hlt : rank (flatActive bs req) (blockStart bs i0 + j0) < t * S
      · rw [if_pos hlt, if_pos (by omega)]
      · rw [if_neg hlt, if_neg (by omega)]

/-! ### The whole derivative path computes the exact jacobian -/

theorem numStrides_zero (S : Nat) (hS : 0 < S) : numStrides 0 S = 0 := by
  rw [numStrides]
  exact Nat.div_eq_of_lt (by omega)

theorem jacsInv_initial (J : Nat → Nat → ℚ) (bs : List Nat) (req : List Bool) (m S : Nat)
    (jacs0 : List (List ℚ)) (hlen : jacs0.length = bs.length)
    (hblen : ∀ i0, i0 < bs.length → req.getD i0 false = true →
        (jacs0.getD i0 []).length = m * bs.getD i0 0) :
    JacsInv J (flatActive bs req) bs req m S 0 jacs0 jacs0 := by
  refine ⟨hlen, fun i0 hi0 => ⟨fun _ => rfl, fun hreq => ⟨hblen i0 hi0 hreq, ?_⟩⟩⟩
  intro k0 j0 _ _
  rw [if_neg (by omega)]

theorem evalResult_ext (r : EvalResult) (ok : Bool) (res : List ℚ) (jacs : List (List ℚ))
    (calls : Nat) (h1 : r.ok = ok) (h2 : r.residuals = res) (h3 : r.jacs = jacs)
    (h4 : r.calls = calls) : r = ⟨ok, res, jacs, calls⟩ := by
  cases r
  simp only at h1 h2 h3 h4
  rw [h1, h2, h3, h4]

theorem ext_getD {α : Type} (l1 l2 : List α) (d : α) (hlen : l1.length = l2.length)
    (h : ∀ n, n < l1.length → l1.getD n d = l2.getD n d) : l1 = l2 := by
  apply List.ext_getElem hlen
  intro n h1 h2
  have h3 := h n h1
  rw [List.getD_eq_getElem?_getD, List.getD_eq_getElem?_getD,
    List.getElem?_eq_getElem h1, List.getElem?_eq_getElem h2] at h3
  simpa using h3

theorem length_jacSpecBuf (J : Nat → Nat → ℚ) (m bsi start : Nat) :
    (jacSpecBuf J m bsi start).length = m * bsi := by
  rw [jacSpecBuf]
  simp

theorem getD_jacSpecBuf (J : Nat → Nat → ℚ) (m bsi start off : Nat) (h : off < m * bsi) :
    (jacSpecBuf J m bsi start).getD off 0 = J (off / bsi) (start + off % bsi) := by
  rw [jacSpecBuf]
  exact getD_range_map _ _ off 0 h

theorem getD_jacsDirect (J : Nat → Nat → ℚ) (m : Nat) (bs : List Nat) (req : List Bool)
    (jacs0 : List (List ℚ)) (i0 : Nat) (h : i0 < bs.length) :
    (jacsDirect J m bs req jacs0).getD i0 [] =
      (if req.getD i0 false = true then jacSpecBuf J m (bs.getD i0 0) (blockStart bs i0)
       else jacs0.getD i0 []) := by
  rw [jacsDirect]
  exact getD_range_map _ _ i0 [] h

theorem jacsInv_final (J : Nat → Nat → ℚ) (bs : List Nat) (req : List Bool) (m S t : Nat)
    (jacs0 jc : List (List ℚ)) (hpos : ∀ b ∈ bs, 0 < b)
    (hinv : JacsInv J (flatActive bs req) bs req m S t jacs0 jc)
    (hcover : (flatActive bs req).count true ≤ t * S) :
    jc = jacsDirect J m bs req jacs0 := by
  apply ext_getD _ _ []
  · rw [hinv.1]
    simp [jacsDirect]
  · intro i0 h1
    have hi0 : i0 < bs.length := by rw [← hinv.1]; exact h1
    rw [getD_jacsDirect J m bs req jacs0 i0 hi0]
    by_cases hreq : req.getD i0 false = true
    · rw [if_pos hreq]
      have hbsi : 0 < bs.getD i0 0 := by
        have hmem : bs.getD i0 0 ∈ bs := by
          rw [List.getD_eq_getElem?_getD, List.getElem?_eq_getElem hi0]
          exact List.getElem_mem _
        exact hpos _ hmem
      rcases (hinv.2 i0 hi0).2 hreq with ⟨hblen, hent⟩
      apply ext_getD _ _ 0
      · rw [hblen, length_jacSpecBuf]
      · intro off ho1
        have hoff : off < m * bs.getD i0 0 := by rw [← hblen]; exact ho1
        have hk0 : off / bs.getD i0 0 < m := (Nat.div_lt_iff_lt_mul hbsi).mpr hoff
        have hj0 : off % bs.getD i0 0 < bs.getD i0 0 := Nat.mod_lt _ hbsi
        have hdec : off = (off / bs.getD i0 0) * bs.getD i0 0 + off % bs.getD i0 0 := by
          have h := Nat.div_add_mod off (bs.getD i0 0)
          rw [Nat.mul_comm] at h
          omega
        have hent2 := hent (off / bs.getD i0 0) (off % bs.getD i0 0) hk0 hj0
        rw [← hdec] at hent2
        rw [hent2]
        have hx0 : blockStart bs i0 + off % bs.getD i0 0 < bs.sum :=
          blockStart_add_lt bs i0 _ hi0 hj0
        have hact : (flatActive bs req).getD (blockStart bs i0 + off % bs.getD i0 0) false
            = true := by
          rw [getD_flatActive bs req _ hx0, posBlock_blockStart bs hpos i0 _ hi0 hj0]
          exact hreq
        rw [if_pos (by
          have := rank_lt_count_of_active (flatActive bs req) hact
          omega)]
        rw [getD_jacSpecBuf J m _ _ off hoff]
    · rw [Bool.not_eq_true] at hreq
      rw [if_neg (by rw [hreq]; exact fun hc => absurd hc (by simp))]
      exact (hinv.2 i0 hi0).1 hreq

theorem runPasses_main_aux (fJ : List (List Jet) → Option (List Jet))
    (fS : List (List ℚ) → Option (List ℚ)) (J : Nat → Nat → ℚ) (params : List (List ℚ))
    (rs : List ℚ) (S : Nat) (bs : List Nat) (req : List Bool) (m : Nat)
    (hS : 0 < S) (hpos : ∀ b ∈ bs, 0 < b)
    (hplen : params.length = bs.length)
    (hplen2 : ∀ i, i < bs.length → (params.getD i []).length = bs.getD i 0)
    (hLin : IsLinearizationAt fJ fS J params)
    (hfS : fS params = some rs) (hrslen : rs.length = m) :
    ∀ fuel t c res jc jacs0,
      t + fuel = numStrides ((flatActive bs req).count true) S →
      (⟨0, c.cds, c.cdsc⟩ : Cursor) = passState S (sectionList bs req) (flatActive bs req) t →
      JacsInv J (flatActive bs req) bs req m S t jacs0 jc →
      (runPasses fJ S (sectionList bs req) (flatActive bs req) (flatParams bs params)
          (flatIJ bs) bs m fuel c res jc).ok = true ∧
      (runPasses fJ S (sectionList bs req) (flatActive bs req) (flatParams bs params)
          (flatIJ bs) bs m fuel c res jc).calls = fuel ∧
      (runPasses fJ S (sectionList bs req) (flatActive bs req) (flatParams bs params)
          (flatIJ bs) bs m fuel c res jc).residuals =
        (if fuel = 0 then res else writeVals m rs) ∧
      JacsInv J (flatActive bs req) bs req m S
        (numStrides ((flatActive bs req).count true) S) jacs0
        (runPasses fJ S (sectionList bs req) (flatActive bs req) (flatParams bs params)
          (flatIJ bs) bs m fuel c res jc).jacs := by
  intro fuel
  induction fuel with
  | zero =>
    intro t c res jc jacs0 hts hc hinv
    have ht : t = numStrides ((flatActive bs req).count true) S := by omega
    exact ⟨rfl, rfl, by rw [if_pos rfl]; rfl, ht ▸ hinv⟩
  | succ fuel ih =>
    intro t c res jc jacs0 hts hc hinv
    have hns1 : 1 ≤ numStrides ((flatActive bs req).count true) S := by omega
    have hnap : 0 < (flatActive bs req).count true := by
      by_contra hz
      have hz2 : (flatActive bs req).count true = 0 := by omega
      rw [hz2, numStrides_zero S hS] at hts
      omega
    have htle : t * S ≤ (flatActive bs req).count true := by
      have h1 := numStrides_pred_mul_lt ((flatActive bs req).count true) S hS hnap
      have h2 : t ≤ numStrides ((flatActive bs req).count true) S - 1 := by omega
      have h3 : t * S ≤ (numStrides ((flatActive bs req).count true) S - 1) * S :=
        Nat.mul_le_mul_right S h2
      omega
    have hshape := secShape_sectionList bs req hpos
    have hassign : (strideAssign S (sectionList bs req) (flatActive bs req) 0
        ⟨0, c.cds, c.cdsc⟩).2.1 =
        (List.range (flatActive bs req).length).map
          (seedSpec (flatActive bs req) S (t * S)) := by
      rw [hc]
      exact passAssign_spec S (sectionList bs req) (flatActive bs req) hS hshape t htle
    have hfJ : fJ (groupBlocks bs (mkInputs S (flatParams bs params)
        (strideAssign S (sectionList bs req) (flatActive bs req) 0 ⟨0, c.cds, c.cdsc⟩).2.1)) =
        some (linearOutputs J S (groupBlocks bs (mkInputs S (flatParams bs params)
          (strideAssign S (sectionList bs req) (flatActive bs req) 0 ⟨0, c.cds, c.cdsc⟩).2.1)) rs) := by
      rw [hLin S _ (blockPrimals_inputs S bs params _ hplen hplen2)
        (v_length_inputs S (flatParams bs params) _ bs), hfS]
      rfl
    have hred : runPasses fJ S (sectionList bs req) (flatActive bs req) (flatParams bs params)
        (flatIJ bs) bs m (fuel + 1) c res jc =
        ⟨(runPasses fJ S (sectionList bs req) (flatActive bs req) (flatParams bs params)
            (flatIJ bs) bs m fuel
            (strideAssign S (sectionList bs req) (flatActive bs req) 0 ⟨0, c.cds, c.cdsc⟩).1
            (if fuel = 0 then writeVals m ((linearOutputs J S (groupBlocks bs (mkInputs S
              (flatParams bs params) (strideAssign S (sectionList bs req) (flatActive bs req) 0
                ⟨0, c.cds, c.cdsc⟩).2.1)) rs).map Jet.a) else res)
            (scatter m bs (linearOutputs J S (groupBlocks bs (mkInputs S (flatParams bs params)
              (strideAssign S (sectionList bs req) (flatActive bs req) 0
                ⟨0, c.cds, c.cdsc⟩).2.1)) rs) (flatIJ bs)
              (strideAssign S (sectionList bs req) (flatActive bs req) 0
                ⟨0, c.cds, c.cdsc⟩).2.1 jc)).ok,
          (runPasses fJ S (sectionList bs req) (flatActive bs req) (flatParams bs params)
            (flatIJ bs) bs m fuel
            (strideAssign S (sectionList bs req) (flatActive bs req) 0 ⟨0, c.cds, c.cdsc⟩).1
            (if fuel = 0 then writeVals m ((linearOutputs J S (groupBlocks bs (mkInputs S
              (flatParams bs params) (strideAssign S (sectionList bs req) (flatActive bs req) 0
                ⟨0, c.cds, c.cdsc⟩).2.1)) rs).map Jet.a) else res)
            (scatter m bs (linearOutputs J S (groupBlocks bs (mkInputs S (flatParams bs params)
              (strideAssign S (sectionList bs req) (flatActive bs req) 0
                ⟨0, c.cds, c.cdsc⟩).2.1)) rs) (flatIJ bs)
              (strideAssign S (sectionList bs req) (flatActive bs req) 0
                ⟨0, c.cds, c.cdsc⟩).2.1 jc)).residuals,
          (runPasses fJ S (sectionList bs req) (flatActive bs req) (flatParams bs params)
            (flatIJ bs) bs m fuel
            (strideAssign S (sectionList bs req) (flatActive bs req) 0 ⟨0, c.cds, c.cdsc⟩).1
            (if fuel = 0 then writeVals m ((linearOutputs J S (groupBlocks bs (mkInputs S
              (flatParams bs params) (strideAssign S (sectionList bs req) (flatActive bs req) 0
                ⟨0, c.cds, c.cdsc⟩).2.1)) rs).map Jet.a) else res)
            (scatter m bs (linearOutputs J S (groupBlocks bs (mkInputs S (flatParams bs params)
              (strideAssign S (sectionList bs req) (flatActive bs req) 0
                ⟨0, c.cds, c.cdsc⟩).2.1)) rs) (flatIJ bs)
              (strideAssign S (sectionList bs req) (flatActive bs req) 0
                ⟨0, c.cds, c.cdsc⟩).2.1 jc)).jacs,
          (runPasses fJ S (sectionList bs req) (flatActive bs req) (flatParams bs params)
            (flatIJ bs) bs m fuel
            (strideAssign S (sectionList bs req) (flatActive bs req) 0 ⟨0, c.cds, c.cdsc⟩).1
            (if fuel = 0 then writeVals m ((linearOutputs J S (groupBlocks bs (mkInputs S
              (flatParams bs params) (strideAssign S (sectionList bs req) (flatActive bs req) 0
                ⟨0, c.cds, c.cdsc⟩).2.1)) rs).map Jet.a) else res)
            (scatter m bs (linearOutputs J S (groupBlocks bs (mkInputs S (flatParams bs params)
              (strideAssign S (sectionList bs req) (flatActive bs req) 0
                ⟨0, c.cds, c.cdsc⟩).2.1)) rs) (flatIJ bs)
              (strideAssign S (sectionList bs req) (flatActive bs req) 0
                ⟨0, c.cds, c.cdsc⟩).2.1 jc)).calls + 1⟩ := by
      rw [runPasses_cons, hfJ]
    rw [hred]
    dsimp only
    have hc2 : (⟨0, (strideAssign S (sectionList bs req) (flatActive bs req) 0
        ⟨0, c.cds, c.cdsc⟩).1.cds,
        (strideAssign S (sectionList bs req) (flatActive bs req) 0 ⟨0, c.cds, c.cdsc⟩).1.cdsc⟩
          : Cursor) = passState S (sectionList bs req) (flatActive bs req) (t + 1) := by
      show _ = (⟨0, (strideAssign S (sectionList bs req) (flatActive bs req) 0
        (passState S (sectionList bs req) (flatActive bs req) t)).1.cds,
        (strideAssign S (sectionList bs req) (flatActive bs req) 0
          (passState S (sectionList bs req) (flatActive bs req) t)).1.cdsc⟩ : Cursor)
      rw [hc]
    have hout : ∀ k0 x, k0 < m → x < (flatActive bs req).length →
        (flatActive bs req).getD x false = true →
        t * S ≤ rank (flatActive bs req) x → rank (flatActive bs req) x < t * S + S →
        ((linearOutputs J S (groupBlocks bs (mkInputs S (flatParams bs params)
          (strideAssign S (sectionList bs req) (flatActive bs req) 0
            ⟨0, c.cds, c.cdsc⟩).2.1)) rs).getD k0 zeroJet).v.getD
          (rank (flatActive bs req) x - t * S) 0 = J k0 x := by
      intro k0 x hk0 hx hact h1 h2
      rw [hassign]
      exact out_val_at J S bs (flatActive bs req) (flatParams bs params) rs (t * S)
        (length_flatParams bs params) (length_flatActive bs req) k0 x (by omega) hx hact h1 h2
    have hinv2 := jacsInv_step J S bs req m _ t jacs0 jc hpos hinv hout
    rw [← hassign] at hinv2
    have IH := ih (t + 1)
      (strideAssign S (sectionList bs req) (flatActive bs req) 0 ⟨0, c.cds, c.cdsc⟩).1
      (if fuel = 0 then writeVals m ((linearOutputs J S (groupBlocks bs (mkInputs S
        (flatParams bs params) (strideAssign S (sectionList bs req) (flatActive bs req) 0
          ⟨0, c.cds, c.cdsc⟩).2.1)) rs).map Jet.a) else res)
      (scatter m bs (linearOutputs J S (groupBlocks bs (mkInputs S (flatParams bs params)
        (strideAssign S (sectionList bs req) (flatActive bs req) 0
          ⟨0, c.cds, c.cdsc⟩).2.1)) rs) (flatIJ bs)
        (strideAssign S (sectionList bs req) (flatActive bs req) 0
          ⟨0, c.cds, c.cdsc⟩).2.1 jc) jacs0 (by omega) hc2 hinv2
    refine ⟨IH.1, by rw [IH.2.1], ?_, IH.2.2.2⟩
    rw [IH.2.2.1]
    cases hfuel : fuel with
    | zero =>
      rw [map_a_linearOutputs]
      simp
    | succ fuel2 =>
      simp

theorem Evaluate_deriv_ok (fS : List (List ℚ) → Option (List ℚ))
    (fJ : List (List Jet) → Option (List Jet)) (J : Nat → Nat → ℚ) (S : Nat) (bs : List Nat)
    (m : Int) (params : List (List ℚ)) (req : List Bool) (res0 : List ℚ)
    (jacs0 : List (List ℚ)) (rs : List ℚ)
    (hS : 0 < S) (hm : 0 < m) (hpos : ∀ b ∈ bs, 0 < b)
    (hplen : params.length = bs.length)
    (hplen2 : ∀ i, i < bs.length → (params.getD i []).length = bs.getD i 0)
    (hjlen : jacs0.length = bs.length)
    (hjlen2 : ∀ i, i < bs.length → req.getD i false = true →
        (jacs0.getD i []).length = m.toNat * bs.getD i 0)
    (hLin : IsLinearizationAt fJ fS J params)
    (hfS : fS params = some rs) (hrslen : rs.length = m.toNat)
    (hnap : numActive bs req ≠ 0) :
    Evaluate fS fJ S bs m params req res0 jacs0 false =
      .ok ⟨true, writeVals m.toNat rs, jacsDirect J m.toNat bs req jacs0,
        numStrides (numActive bs req) S⟩ := by
  have hcnt := numActive_eq bs req hpos
  have hnap2 : 0 < (flatActive bs req).count true := by omega
  have hns : 0 < numStrides ((flatActive bs req).count true) S :=
    numStrides_pos _ S hS hnap2
  have hmain := runPasses_main_aux fJ fS J params rs S bs req m.toNat hS hpos hplen hplen2
    hLin hfS hrslen (numStrides ((flatActive bs req).count true) S) 0 ⟨0, 0, 0⟩ res0 jacs0
    jacs0 (by omega) rfl (jacsInv_initial J bs req m.toNat S jacs0 hjlen hjlen2)
  rw [Evaluate, if_neg (by omega), if_neg (by simp), if_neg hnap, hcnt]
  congr 1
  apply evalResult_ext
  · exact hmain.1
  · rw [hmain.2.2.1, if_neg (by omega)]
  · exact jacsInv_final J bs req m.toNat S _ jacs0 _ hpos hmain.2.2.2
      (numStrides_mul_ge _ S hS)
  · exact hmain.2.1

theorem Evaluate_deriv_fail (fS : List (List ℚ) → Option (List ℚ))
    (fJ : List (List Jet) → Option (List Jet)) (J : Nat → Nat → ℚ) (S : Nat) (bs : List Nat)
    (m : Int) (params : List (List ℚ)) (req : List Bool) (res0 : List ℚ)
    (jacs0 : List (List ℚ))
    (hS : 0 < S) (hm : 0 < m) (hpos : ∀ b ∈ bs, 0 < b)
    (hplen : params.length = bs.length)
    (hplen2 : ∀ i, i < bs.length → (params.getD i []).length = bs.getD i 0)
    (hLin : IsLinearizationAt fJ fS J params)
    (hfS : fS params = none)
    (hnap : numActive bs req ≠ 0) :
    Evaluate fS fJ S bs m params req res0 jacs0 false =
      .ok ⟨false, res0, jacs0, 1⟩ := by
  have hcnt := numActive_eq bs req hpos
  have hnap2 : 0 < (flatActive bs req).count true := by omega
  have hns : 0 < numStrides ((flatActive bs req).count true) S :=
    numStrides_pos _ S hS hnap2
  rw [Evaluate, if_neg (by omega), if_neg (by simp), if_neg hnap, hcnt]
  obtain ⟨fuel, hfuel⟩ : ∃ fuel, numStrides ((flatActive bs req).count true) S = fuel + 1 :=
    ⟨numStrides ((flatActive bs req).count true) S - 1, by omega⟩
  rw [hfuel]
  have hfJ : fJ (groupBlocks bs (mkInputs S (flatParams bs params)
      (strideAssign S (sectionList bs req) (flatActive bs req) 0
        ⟨0, (⟨0, 0, 0⟩ : Cursor).cds, (⟨0, 0, 0⟩ : Cursor).cdsc⟩).2.1)) = none := by
    rw [hLin S _ (blockPrimals_inputs S bs params _ hplen hplen2)
      (v_length_inputs S (flatParams bs params) _ bs), hfS]
    rfl
  rw [runPasses_cons, hfJ]

/-! ### Blocks with a null jacobian slot are never written -/

theorem length_strideAssign_asg (S : Nat) (ss : List Nat) :
    ∀ (acts : List Bool) (p : Nat) (c : Cursor),
    (strideAssign S ss acts p c).2.1.length = acts.length := by
  intro acts
  induction acts with
  | nil => intro p c; rfl
  | cons a rest ih =>
    intro p c
    rw [strideAssign_cons]
    by_cases h1 : c.apc < S
    · rw [if_pos h1]
      by_cases h2 : ss.getD c.cds 0 + c.cdsc ≤ p
      · rw [if_pos h2]
        cases a
        · simp only [Bool.false_eq_true, if_false, List.length_cons]
          rw [ih]
        · simp only [if_true, List.length_cons]
          rw [ih]
      · rw [if_neg h2]
        simp only [List.length_cons]
        rw [ih]
    · rw [if_neg h1]
      simp only [List.length_cons]
      rw [ih]

theorem strideAssign_some_active (S : Nat) (ss : List Nat) :
    ∀ (acts : List Bool) (p : Nat) (c : Cursor) (n : Nat),
    ((strideAssign S ss acts p c).2.1.getD n none).isSome = true →
    acts.getD n false = true := by
  intro acts
  induction acts with
  | nil => intro p c n h; simp [strideAssign] at h
  | cons a rest ih =>
    intro p c n h
    rw [strideAssign_cons] at h
    by_cases h1 : c.apc < S
    · rw [if_pos h1] at h
      by_cases h2 : ss.getD c.cds 0 + c.cdsc ≤ p
      · rw [if_pos h2] at h
        cases a
        · simp only [Bool.false_eq_true, if_false] at h
          cases n with
          | zero => simp at h
          | succ n =>
            rw [List.getD_cons_succ] at h
            rw [List.getD_cons_succ]
            exact ih (p + 1) _ n h
        · simp only [if_true] at h
          cases n with
          | zero => rfl
          | succ n =>
            rw [List.getD_cons_succ] at h
            rw [List.getD_cons_succ]
            exact ih (p + 1) _ n h
      · rw [if_neg h2] at h
        cases n with
        | zero => simp at h
        | succ n =>
          rw [List.getD_cons_succ] at h
          rw [List.getD_cons_succ]
          exact ih (p + 1) c n h
    · rw [if_neg h1] at h
      cases n with
      | zero => simp at h
      | succ n =>
        rw [List.getD_cons_succ] at h
        rw [List.getD_cons_succ]
        exact ih (p + 1) c n h

theorem runPasses_nonreq (fJ : List (List Jet) → Option (List Jet)) (S : Nat)
    (bs : List Nat) (req : List Bool) (m : Nat) (flatP : List ℚ) :
    ∀ fuel (c : Cursor) (res : List ℚ) (jc : List (List ℚ)) (i0 : Nat),
    req.getD i0 false = false →
    ((runPasses fJ S (sectionList bs req) (flatActive bs req) flatP (flatIJ bs) bs m fuel
        c res jc).jacs).getD i0 [] = jc.getD i0 [] := by
  intro fuel
  induction fuel with
  | zero => intro c res jc i0 _; rfl
  | succ fuel ih =>
    intro c res jc i0 hreq
    cases hout : fJ (groupBlocks bs (mkInputs S flatP
        (strideAssign S (sectionList bs req) (flatActive bs req) 0 ⟨0, c.cds, c.cdsc⟩).2.1)) with
    | none =>
      have hred : runPasses fJ S (sectionList bs req) (flatActive bs req) flatP (flatIJ bs)
          bs m (fuel + 1) c res jc = ⟨false, res, jc, 1⟩ := by
        rw [runPasses_cons, hout]
      rw [hred]
    | some out =>
      have hred := runPasses_cons fJ S (sectionList bs req) (flatActive bs req) flatP
        (flatIJ bs) bs m fuel c res jc
      rw [hred, hout]
      dsimp only
      rw [ih _ _ _ i0 hreq]
      apply scatter_block_unchanged
      intro n hn hs
      rw [flatIJ, length_flatIJFrom] at hn
      have hact := strideAssign_some_active S (sectionList bs req) (flatActive bs req) 0
        ⟨0, c.cds, c.cdsc⟩ n hs
      have hnsum : n < bs.sum := by
        have := lt_length_of_getD_true _ hact
        rw [length_flatActive] at this
        exact this
      rw [getD_flatIJ bs n hnsum]
      rw [getD_flatActive bs req n hnsum] at hact
      intro hc
      rw [hc, hreq] at hact
      exact absurd hact (by simp)

/-! ### Concrete functors satisfy the functor contracts -/

theorem exLin_isLinearization : IsLinearizationAt exLinFJ exLinS exLinJ [[1]] := by
  intro S blocks hprim hv
  have hw : vWidth blocks = S := by
    cases blocks with
    | nil => simp [blockPrimals] at hprim
    | cons b bt =>
      cases bt with
      | cons _ _ => simp [blockPrimals] at hprim
      | nil =>
        cases b with
        | nil => simp [blockPrimals] at hprim
        | cons x xt =>
          cases xt with
          | cons _ _ => simp [blockPrimals] at hprim
          | nil =>
            have hx : x ∈ ([x] : List Jet) := by simp
            have := hv [x] (by simp) x hx
            simpa [vWidth] using this
  rw [exLinFJ, hprim, hw]

theorem example_primalConsistent :
    PrimalConsistentAt exampleFunctorJ exampleFunctorS [[1, 2], [3, 4]] := by
  intro blocks hprim
  rw [blockPrimals] at hprim
  cases blocks with
  | nil => simp at hprim
  | cons b0 bt =>
    cases bt with
    | nil => simp at hprim
    | cons b1 bt2 =>
      cases bt2 with
      | cons _ _ => simp at hprim
      | nil =>
        simp only [List.map_cons, List.map_nil, List.cons.injEq, and_true] at hprim
        obtain ⟨h0, h1⟩ := hprim
        rcases b0 with _ | ⟨x0, _ | ⟨x1, _ | ⟨x2, t0⟩⟩⟩ <;> simp at h0
        rcases b1 with _ | ⟨y0, _ | ⟨y1, _ | ⟨y2, t1⟩⟩⟩ <;> simp at h1
        obtain ⟨hx0, hx1⟩ := h0
        obtain ⟨hy0, hy1⟩ := h1
        rw [exampleFunctorJ, exampleFunctorS]
        simp [Jet.add, Jet.mul, hx0, hx1, hy0, hy1]

/-! ### The claims -/

section

attribute [local semireducible] Rat.add Rat.mul

/-- C9: calling `Evaluate` with the residual count unset or non-positive hits the
`CHECK_GT(num_residuals(), 0)` abort (modelled as the `Except.error` outcome, not a
`false` return), and this happens before anything else — for the null and non-null
`jacobians` paths alike. -/
theorem claim_C9 (fS : List (List ℚ) → Option (List ℚ))
    (fJ : List (List Jet) → Option (List Jet)) (S : Nat) (bs : List Nat) (m : Int)
    (params : List (List ℚ)) (req : List Bool) (res0 : List ℚ) (jacs0 : List (List ℚ))
    (jacNull : Bool) (hm : m ≤ 0) :
    Evaluate fS fJ S bs m params req res0 jacs0 jacNull =
      .error "You must call SetNumResiduals() before Evaluate()." := by
  rw [Evaluate, if_pos hm]

theorem claim_C9_witness :
    (0 : Int) ≤ 0 ∧
    Evaluate failFunctorS failFunctorJ 1 [1] 0 [[5]] [true] [0] [[0]] true =
      .error "You must call SetNumResiduals() before Evaluate()." :=
  ⟨by decide, claim_C9 failFunctorS failFunctorJ 1 [1] 0 [[5]] [true] [0] [[0]] true (by decide)⟩

/-- C5: when the jacobians argument is non-null but the computed active parameter
count is zero, `Evaluate` behaves exactly as if no jacobians had been requested:
the call is literally equal to the `jacobians == nullptr` fast path (one direct
scalar invocation, no dual-number pass, no jacobian buffer written). -/
theorem claim_C5 (fS : List (List ℚ) → Option (List ℚ))
    (fJ : List (List Jet) → Option (List Jet)) (S : Nat) (bs : List Nat) (m : Int)
    (params : List (List ℚ)) (req : List Bool) (res0 : List ℚ) (jacs0 : List (List ℚ))
    (hnap : numActive bs req = 0) :
    Evaluate fS fJ S bs m params req res0 jacs0 false =
      Evaluate fS fJ S bs m params req res0 jacs0 true := by
  rw [Evaluate, Evaluate]
  by_cases hm : m ≤ 0
  · rw [if_pos hm, if_pos hm]
  · rw [if_neg hm, if_neg hm]
    rw [if_neg (show ¬((false : Bool) = true) by simp), if_pos hnap, if_pos rfl]

theorem claim_C5_witness :
    numActive [2] [false] = 0 ∧
    Evaluate exampleFunctorS exampleFunctorJ 4 [2] 2 [[1, 2]] [false] [0, 0] [[0, 0, 0, 0]]
        false =
      Evaluate exampleFunctorS exampleFunctorJ 4 [2] 2 [[1, 2]] [false] [0, 0] [[0, 0, 0, 0]]
        true :=
  ⟨by decide, claim_C5 exampleFunctorS exampleFunctorJ 4 [2] 2 [[1, 2]] [false] [0, 0]
    [[0, 0, 0, 0]] (by decide)⟩

/-- C2: the concrete scenario — `f(x1, x2) = [x1[0]^2 + x2[0]^2, x1[1]^2 + x2[1]^2]`,
two blocks of size 2, both jacobian slots non-null, `x1 = [1, 2]`, `x2 = [3, 4]`:
`Evaluate` returns true, residuals `[10, 20]`, block-0 jacobian buffer
`[2, 0, 0, 4]` and block-1 buffer `[6, 0, 0, 8]`; reassembling element
`(residual k, column j)` of block `p / 2` from row-major offset `k * 2 + j = k * 2 + p % 2`
yields the overall jacobian rows `[2, 0, 6, 0]` and `[0, 4, 0, 8]`. -/
theorem claim_C2 :
    Evaluate exampleFunctorS exampleFunctorJ 4 [2, 2] 2 [[1, 2], [3, 4]] [true, true]
        [0, 0] [[0, 0, 0, 0], [0, 0, 0, 0]] false =
      .ok ⟨true, [10, 20], [[2, 0, 0, 4], [6, 0, 0, 8]], 1⟩ ∧
    (List.range 4).map (fun p =>
        (([[2, 0, 0, 4], [6, 0, 0, 8]] : List (List ℚ)).getD (p / 2) []).getD
          (0 * 2 + p % 2) 0) = [2, 0, 6, 0] ∧
    (List.range 4).map (fun p =>
        (([[2, 0, 0, 4], [6, 0, 0, 8]] : List (List ℚ)).getD (p / 2) []).getD
          (1 * 2 + p % 2) 0) = [0, 4, 0, 8] :=
  ⟨by rfl, by rfl, by rfl⟩

/-- C10: `Evaluate` takes the parameter values as pure inputs (they are only ever
read in the embedding), and a block whose jacobian slot is null keeps its caller
buffer untouched on every path and for every outcome of the call. -/
theorem claim_C10 (fS : List (List ℚ) → Option (List ℚ))
    (fJ : List (List Jet) → Option (List Jet)) (S : Nat) (bs : List Nat) (m : Int)
    (params : List (List ℚ)) (req : List Bool) (res0 : List ℚ) (jacs0 : List (List ℚ))
    (jacNull : Bool) (i : Nat) (r : EvalResult)
    (hreq : req.getD i false = false)
    (hr : Evaluate fS fJ S bs m params req res0 jacs0 jacNull = .ok r) :
    r.jacs.getD i [] = jacs0.getD i [] := by
  rw [Evaluate] at hr
  by_cases hm : m ≤ 0
  · rw [if_pos hm] at hr
    exact absurd hr (by simp)
  · rw [if_neg hm] at hr
    cases jacNull with
    | true =>
      rw [if_pos rfl] at hr
      cases hfS : fS params with
      | none => rw [hfS] at hr; simp only [Except.ok.injEq] at hr; subst hr; rfl
      | some rs => rw [hfS] at hr; simp only [Except.ok.injEq] at hr; subst hr; rfl
    | false =>
      rw [if_neg (show ¬((false : Bool) = true) by simp)] at hr
      by_cases hnap : numActive bs req = 0
      · rw [if_pos hnap] at hr
        cases hfS : fS params with
        | none => rw [hfS] at hr; simp only [Except.ok.injEq] at hr; subst hr; rfl
        | some rs => rw [hfS] at hr; simp only [Except.ok.injEq] at hr; subst hr; rfl
      · rw [if_neg hnap] at hr
        simp only [Except.ok.injEq] at hr
        subst hr
        exact runPasses_nonreq fJ S bs req m.toNat (flatParams bs params) _ _ _ _ i hreq

theorem claim_C10_witness :
    ([true, false] : List Bool).getD 1 false = false ∧
    (⟨true, [10, 20], [[2, 0, 0, 4], [9, 9, 9, 9]], 2⟩ : EvalResult).jacs.getD 1 [] =
      ([[0, 0, 0, 0], [9, 9, 9, 9]] : List (List ℚ)).getD 1 [] :=
  ⟨rfl, claim_C10 exampleFunctorS exampleFunctorJ 1 [2, 2] 2 [[1, 2], [3, 4]] [true, false]
    [0, 0] [[0, 0, 0, 0], [9, 9, 9, 9]] false 1
    ⟨true, [10, 20], [[2, 0, 0, 4], [9, 9, 9, 9]], 2⟩ rfl (by rfl)⟩

/-- C7: `num_strides` is exactly `ceil(active_parameter_count / Stride)` (the first
two conjuncts pin the ceiling), the functor is invoked exactly once on the
`jacobians == nullptr` path and on the zero-active-count fallback, and on a fully
successful derivative-path call it is invoked exactly `num_strides` times. -/
theorem claim_C7 (fS : List (List ℚ) → Option (List ℚ))
    (fJ : List (List Jet) → Option (List Jet)) (S : Nat) (bs : List Nat) (m : Int)
    (params : List (List ℚ)) (req : List Bool) (res0 : List ℚ) (jacs0 : List (List ℚ))
    (hS : 0 < S) :
    (numActive bs req ≤ numStrides (numActive bs req) S * S) ∧
    (numActive bs req ≠ 0 → (numStrides (numActive bs req) S - 1) * S < numActive bs req) ∧
    (∀ r, Evaluate fS fJ S bs m params req res0 jacs0 true = .ok r → r.calls = 1) ∧
    (numActive bs req = 0 →
      ∀ r, Evaluate fS fJ S bs m params req res0 jacs0 false = .ok r → r.calls = 1) ∧
    (numActive bs req ≠ 0 →
      ∀ r, Evaluate fS fJ S bs m params req res0 jacs0 false = .ok r → r.ok = true →
        r.calls = numStrides (numActive bs req) S) := by
  refine ⟨numStrides_mul_ge _ S hS,
    fun h => numStrides_pred_mul_lt _ S hS (Nat.pos_of_ne_zero h), ?_, ?_, ?_⟩
  · intro r hr
    rw [Evaluate] at hr
    by_cases hm : m ≤ 0
    · rw [if_pos hm] at hr
      exact absurd hr (by simp)
    · rw [if_neg hm, if_pos rfl] at hr
      cases hfS : fS params with
      | none => rw [hfS] at hr; simp only [Except.ok.injEq] at hr; subst hr; rfl
      | some rs => rw [hfS] at hr; simp only [Except.ok.injEq] at hr; subst hr; rfl
  · intro hnap r hr
    rw [Evaluate] at hr
    by_cases hm : m ≤ 0
    · rw [if_pos hm] at hr
      exact absurd hr (by simp)
    · rw [if_neg hm, if_neg (show ¬((false : Bool) = true) by simp), if_pos hnap] at hr
      cases hfS : fS params with
      | none => rw [hfS] at hr; simp only [Except.ok.injEq] at hr; subst hr; rfl
      | some rs => rw [hfS] at hr; simp only [Except.ok.injEq] at hr; subst hr; rfl
  · intro hnap r hr hok
    rw [Evaluate] at hr
    by_cases hm : m ≤ 0
    · rw [if_pos hm] at hr
      exact absurd hr (by simp)
    · rw [if_neg hm, if_neg (show ¬((false : Bool) = true) by simp), if_neg hnap] at hr
      simp only [Except.ok.injEq] at hr
      subst hr
      exact (runPasses_char fJ S (sectionList bs req) (flatActive bs req)
        (flatParams bs params) (flatIJ bs) bs m.toNat (numStrides (numActive bs req) S) 0
        ⟨0, 0, 0⟩ res0 jacs0 rfl).1 hok

theorem claim_C7_witness :
    (⟨true, [10, 20], [[2, 0, 0, 4], [6, 0, 0, 8]], 2⟩ : EvalResult).calls =
      numStrides (numActive [2, 2] [true, true]) 2 :=
  (claim_C7 exampleFunctorS exampleFunctorJ 2 [2, 2] 2 [[1, 2], [3, 4]] [true, true] [0, 0]
      [[0, 0, 0, 0], [6, 6, 6, 6]] (by decide)).2.2.2.2 (by decide)
    ⟨true, [10, 20], [[2, 0, 0, 4], [6, 0, 0, 8]], 2⟩ (by rfl) rfl

/-- C6: if the functor reports failure on some stride pass, `Evaluate` returns
false from that pass: the caller's residual buffer is left untouched, the failing
pass is the last one attempted (`calls ≤ num_strides`, the functor returned `none`
on pass `calls - 1`), and every earlier pass had succeeded. -/
theorem claim_C6 (fS : List (List ℚ) → Option (List ℚ))
    (fJ : List (List Jet) → Option (List Jet)) (S : Nat) (bs : List Nat) (m : Int)
    (params : List (List ℚ)) (req : List Bool) (res0 : List ℚ) (jacs0 : List (List ℚ))
    (r : EvalResult) (hm : 0 < m) (hnap : numActive bs req ≠ 0)
    (hr : Evaluate fS fJ S bs m params req res0 jacs0 false = .ok r)
    (hfail : r.ok = false) :
    r.residuals = res0 ∧ 1 ≤ r.calls ∧ r.calls ≤ numStrides (numActive bs req) S ∧
    fJ (passInputs S (sectionList bs req) (flatActive bs req) (flatParams bs params) bs
        (r.calls - 1)) = none ∧
    ∀ u, u < r.calls - 1 →
      fJ (passInputs S (sectionList bs req) (flatActive bs req) (flatParams bs params) bs
        u) ≠ none := by
  rw [Evaluate, if_neg (by omega), if_neg (show ¬((false : Bool) = true) by simp),
    if_neg hnap] at hr
  simp only [Except.ok.injEq] at hr
  subst hr
  obtain ⟨h1, h2, h3, h4, h5⟩ := (runPasses_char fJ S (sectionList bs req)
    (flatActive bs req) (flatParams bs params) (flatIJ bs) bs m.toNat
    (numStrides (numActive bs req) S) 0 ⟨0, 0, 0⟩ res0 jacs0 rfl).2 hfail
  refine ⟨h1, h2, h3, ?_, ?_⟩
  · rwa [Nat.zero_add] at h4
  · intro u hu
    have h6 := h5 u hu
    rwa [Nat.zero_add] at h6

theorem claim_C6_witness :
    (⟨false, [7], [[0]], 1⟩ : EvalResult).residuals = [7] ∧
    failFunctorJ (passInputs 1 (sectionList [1] [true]) (flatActive [1] [true])
        (flatParams [1] [[5]]) [1] ((⟨false, [7], [[0]], 1⟩ : EvalResult).calls - 1)) =
      none :=
  ⟨(claim_C6 failFunctorS failFunctorJ 1 [1] 1 [[5]] [true] [7] [[0]]
      ⟨false, [7], [[0]], 1⟩ (by decide) (by decide) rfl rfl).1,
   (claim_C6 failFunctorS failFunctorJ 1 [1] 1 [[5]] [true] [7] [[0]]
      ⟨false, [7], [[0]], 1⟩ (by decide) (by decide) rfl rfl).2.2.2.1⟩

/-- C4: the success flag and the residual vector produced by `Evaluate` do not
depend on the jacobian request pattern: for a functor whose jet instantiation is
primal-consistent with its scalar instantiation, every path (null jacobians
pointer, any subset of slots, any stride) yields exactly the outcome of one direct
scalar invocation — failure leaves the buffer, success writes the scalar
residuals. -/
theorem claim_C4 (fS : List (List ℚ) → Option (List ℚ))
    (fJ : List (List Jet) → Option (List Jet)) (S : Nat) (bs : List Nat) (m : Int)
    (params : List (List ℚ)) (req : List Bool) (res0 : List ℚ) (jacs0 : List (List ℚ))
    (jacNull : Bool) (hS : 0 < S) (hm : 0 < m)
    (hpc : PrimalConsistentAt fJ fS params)
    (hplen : params.length = bs.length)
    (hplen2 : ∀ i, i < bs.length → (params.getD i []).length = bs.getD i 0) :
    (Evaluate fS fJ S bs m params req res0 jacs0 jacNull).map
        (fun r => (r.ok, r.residuals)) =
      .ok (match fS params with
        | none => (false, res0)
        | some rs => (true, writeVals m.toNat rs)) := by
  rw [Evaluate, if_neg (by omega)]
  cases jacNull with
  | true =>
    rw [if_pos rfl]
    cases hfS : fS params with
    | none => rfl
    | some rs => rfl
  | false =>
    rw [if_neg (show ¬((false : Bool) = true) by simp)]
    by_cases hnap : numActive bs req = 0
    · rw [if_pos hnap]
      cases hfS : fS params with
      | none => rfl
      | some rs => rfl
    · rw [if_neg hnap]
      have hns : 0 < numStrides (numActive bs req) S :=
        numStrides_pos _ S hS (Nat.pos_of_ne_zero hnap)
      have hp := runPasses_primal fJ fS params S (sectionList bs req) (flatActive bs req)
        (flatParams bs params) (flatIJ bs) bs m.toNat hpc
        (fun asg => blockPrimals_inputs S bs params asg hplen hplen2)
        (numStrides (numActive bs req) S) ⟨0, 0, 0⟩ res0 jacs0 hns
      cases hfS : fS params with
      | none =>
        obtain ⟨hok, hres⟩ := hp.1 hfS
        generalize hE : runPasses fJ S (sectionList bs req) (flatActive bs req)
          (flatParams bs params) (flatIJ bs) bs m.toNat
          (numStrides (numActive bs req) S) ⟨0, 0, 0⟩ res0 jacs0 = E at hok hres ⊢
        show Except.ok (E.ok, E.residuals) = Except.ok (false, res0)
        rw [hok, hres]
      | some rs =>
        obtain ⟨hok, hres⟩ := hp.2 rs hfS
        generalize hE : runPasses fJ S (sectionList bs req) (flatActive bs req)
          (flatParams bs params) (flatIJ bs) bs m.toNat
          (numStrides (numActive bs req) S) ⟨0, 0, 0⟩ res0 jacs0 = E at hok hres ⊢
        show Except.ok (E.ok, E.residuals) = Except.ok (true, writeVals m.toNat rs)
        rw [hok, hres]

theorem claim_C4_witness :
    (Evaluate exampleFunctorS exampleFunctorJ 2 [2, 2] 2 [[1, 2], [3, 4]] [true, false]
        [0, 0] [[0, 0, 0, 0], [0, 0, 0, 0]] false).map (fun r => (r.ok, r.residuals)) =
      .ok (match exampleFunctorS [[1, 2], [3, 4]] with
        | none => (false, ([0, 0] : List ℚ))
        | some rs => (true, writeVals (2 : Int).toNat rs)) :=
  claim_C4 exampleFunctorS exampleFunctorJ 2 [2, 2] 2 [[1, 2], [3, 4]] [true, false] [0, 0]
    [[0, 0, 0, 0], [0, 0, 0, 0]] false (by decide) (by decide) example_primalConsistent
    rfl (by intro i hi
            rcases i with _ | _ | n
            · rfl
            · rfl
            · simp only [List.length_cons, List.length_nil] at hi
              omega)

/-- C8: the section bookkeeping vector `start_derivative_section` always ends with
the sentinel entry `bs.sum` (the total parameter count, pushed after the discovery
walk), every indexing of it performed while seeding a stride pass is within
bounds, and the section cursor carried into any later pass is still within the
vector — even when a constant block follows the last active block it moves at
most one entry past the last real section start. -/
theorem claim_C8 (S : Nat) (bs : List Nat) (req : List Bool) (hS : 0 < S)
    (hpos : ∀ b ∈ bs, 0 < b) :
    (sectionList bs req).getLast? = some bs.sum ∧
    (∀ t, t * S ≤ (flatActive bs req).count true →
      ∀ r ∈ passReads S (sectionList bs req) (flatActive bs req) t,
        r < (sectionList bs req).length) ∧
    (∀ t, t * S ≤ (flatActive bs req).count true →
      (passState S (sectionList bs req) (flatActive bs req) (t + 1)).cds <
        (sectionList bs req).length) := by
  have hshape := secShape_sectionList bs req hpos
  refine ⟨?_, ?_, ?_⟩
  · rw [sectionList]
    exact List.getLast?_concat _
  · intro t ht
    exact passReads_lt S _ _ hS hshape t ht
  · intro t ht
    exact passState_cds_lt S _ _ hS hshape (t + 1) (Or.inr ⟨t, rfl, ht⟩)

theorem claim_C8_witness :
    (sectionList [2, 3, 2] [true, false, true]).getLast? = some 7 ∧
    (passState 4 (sectionList [2, 3, 2] [true, false, true])
        (flatActive [2, 3, 2] [true, false, true]) 1).cds <
      (sectionList [2, 3, 2] [true, false, true]).length :=
  ⟨(claim_C8 4 [2, 3, 2] [true, false, true] (by decide) (by decide)).1,
   (claim_C8 4 [2, 3, 2] [true, false, true] (by decide) (by decide)).2.2 0 (by decide)⟩

/-- C3: stride independence — for a functor whose jet instantiation is the exact
linearization of its scalar instantiation at the evaluation point, two calls with
any two positive stride widths return the same success flag, the same residuals
and the same jacobian buffers; the stride can only change the invocation count,
which the comparison deliberately drops. -/
theorem claim_C3 (fS : List (List ℚ) → Option (List ℚ))
    (fJ : List (List Jet) → Option (List Jet)) (J : Nat → Nat → ℚ) (bs : List Nat)
    (m : Int) (params : List (List ℚ)) (req : List Bool) (res0 : List ℚ)
    (jacs0 : List (List ℚ)) (S1 S2 : Nat)
    (hS1 : 0 < S1) (hS2 : 0 < S2) (hm : 0 < m) (hpos : ∀ b ∈ bs, 0 < b)
    (hplen : params.length = bs.length)
    (hplen2 : ∀ i, i < bs.length → (params.getD i []).length = bs.getD i 0)
    (hjlen : jacs0.length = bs.length)
    (hjlen2 : ∀ i, i < bs.length → req.getD i false = true →
        (jacs0.getD i []).length = m.toNat * bs.getD i 0)
    (hLin : IsLinearizationAt fJ fS J params)
    (hrslen : ∀ rs, fS params = some rs → rs.length = m.toNat) :
    (Evaluate fS fJ S1 bs m params req res0 jacs0 false).map
        (fun r => (r.ok, r.residuals, r.jacs)) =
      (Evaluate fS fJ S2 bs m params req res0 jacs0 false).map
        (fun r => (r.ok, r.residuals, r.jacs)) := by
  by_cases hnap : numActive bs req = 0
  · rw [Evaluate, Evaluate, if_neg (show ¬(m ≤ 0) by omega),
      if_neg (show ¬(m ≤ 0) by omega), if_pos hnap, if_pos hnap]
  · cases hfS : fS params with
    | none =>
      rw [Evaluate_deriv_fail fS fJ J S1 bs m params req res0 jacs0 hS1 hm hpos hplen
          hplen2 hLin hfS hnap,
        Evaluate_deriv_fail fS fJ J S2 bs m params req res0 jacs0 hS2 hm hpos hplen
          hplen2 hLin hfS hnap]
    | some rs =>
      rw [Evaluate_deriv_ok fS fJ J S1 bs m params req res0 jacs0 rs hS1 hm hpos hplen
          hplen2 hjlen hjlen2 hLin hfS (hrslen rs hfS) hnap,
        Evaluate_deriv_ok fS fJ J S2 bs m params req res0 jacs0 rs hS2 hm hpos hplen
          hplen2 hjlen hjlen2 hLin hfS (hrslen rs hfS) hnap]
      rfl

theorem claim_C3_witness :
    (Evaluate exLinS exLinFJ 1 [1] 1 [[1]] [true] [0] [[0]] false).map
        (fun r => (r.ok, r.residuals, r.jacs)) =
      (Evaluate exLinS exLinFJ 4 [1] 1 [[1]] [true] [0] [[0]] false).map
        (fun r => (r.ok, r.residuals, r.jacs)) :=
  claim_C3 exLinS exLinFJ exLinJ [1] 1 [[1]] [true] [0] [[0]] 1 4 (by decide) (by decide)
    (by decide) (by decide) rfl
    (by intro i hi
        rcases i with _ | n
        · rfl
        · simp only [List.length_cons, List.length_nil] at hi
          omega)
    rfl
    (by intro i hi _
        rcases i with _ | n
        · rfl
        · simp only [List.length_cons, List.length_nil] at hi
          omega)
    exLin_isLinearization
    (by intro rs hrs
        cases hrs
        rfl)

/-- C1: on the derivative path every active flat parameter position is seeded (its
one-hot derivative slot assigned) in exactly one of the `num_strides` passes, an
inactive position in none of them — the section cursors carried across passes
neither re-seed nor skip a position — and so every (residual row, intra-block
column) jacobian entry of a block with a non-null slot (all of whose positions
are active) is written on exactly one pass. -/
theorem claim_C1 (S : Nat) (bs : List Nat) (req : List Bool) (hS : 0 < S)
    (hpos : ∀ b ∈ bs, 0 < b) :
    (∀ x, x < bs.sum → (flatActive bs req).getD x false = true →
      ∃! t, t < numStrides (numActive bs req) S ∧
        (passAssign S (sectionList bs req) (flatActive bs req) t).getD x none ≠ none) ∧
    (∀ x, x < bs.sum → (flatActive bs req).getD x false = false →
      ∀ t, t < numStrides (numActive bs req) S →
        (passAssign S (sectionList bs req) (flatActive bs req) t).getD x none = none) ∧
    (∀ x, x < bs.sum → req.getD (posBlock bs x).1 false = true →
      ∃! t, t < numStrides (numActive bs req) S ∧
        (passAssign S (sectionList bs req) (flatActive bs req) t).getD x none ≠ none) := by
  have hshape := secShape_sectionList bs req hpos
  have hcnt := numActive_eq bs req hpos
  have hlen := length_flatActive bs req
  have hta : ∀ t, t < numStrides (numActive bs req) S →
      t * S ≤ (flatActive bs req).count true := by
    intro t ht
    rcases Nat.eq_zero_or_pos (numActive bs req) with h0 | hp
    · rw [h0, numStrides_zero S hS] at ht
      omega
    · have h1 := numStrides_pred_mul_lt (numActive bs req) S hS hp
      have h2 : t * S ≤ (numStrides (numActive bs req) S - 1) * S :=
        Nat.mul_le_mul_right S (by omega)
      have h3 : t * S < numActive bs req := Nat.lt_of_le_of_lt h2 h1
      rw [hcnt] at h3
      exact Nat.le_of_lt h3
  have hmain : ∀ x, x < bs.sum → (flatActive bs req).getD x false = true →
      ∃! t, t < numStrides (numActive bs req) S ∧
        (passAssign S (sectionList bs req) (flatActive bs req) t).getD x none ≠ none := by
    intro x hx hact
    have hxlen : x < (flatActive bs req).length := by
      rw [hlen]
      exact hx
    have hrank : rank (flatActive bs req) x < (flatActive bs req).count true :=
      rank_lt_count_of_active _ hact
    have ht0lt : rank (flatActive bs req) x / S < numStrides (numActive bs req) S := by
      have h1 := numStrides_mul_ge (numActive bs req) S hS
      have h2 : rank (flatActive bs req) x < numActive bs req := by
        rw [hcnt]
        exact hrank
      have h3 : rank (flatActive bs req) x < S * numStrides (numActive bs req) S := by
        rw [Nat.mul_comm]
        exact Nat.lt_of_lt_of_le h2 h1
      exact Nat.div_lt_of_lt_mul h3
    refine ⟨rank (flatActive bs req) x / S, ⟨ht0lt, ?_⟩, ?_⟩
    · rw [passAssign_spec S _ _ hS hshape _ (hta _ ht0lt),
        getD_range_map _ _ _ _ hxlen,
        seedSpec_eq_some _ _ _ _ ⟨hact, Nat.div_mul_le_self _ S, ?_⟩]
      · simp
      · have hdm := Nat.div_add_mod (rank (flatActive bs req) x) S
        have hmod := Nat.mod_lt (rank (flatActive bs req) x) hS
        have hstep : S * (rank (flatActive bs req) x / S) + rank (flatActive bs req) x % S <
            S * (rank (flatActive bs req) x / S) + S :=
          Nat.add_lt_add_left hmod _
        rw [hdm] at hstep
        rw [Nat.mul_comm] at hstep
        exact hstep
    · rintro t' ⟨ht'lt, hne⟩
      rw [passAssign_spec S _ _ hS hshape t' (hta t' ht'lt),
        getD_range_map _ _ _ _ hxlen] at hne
      have hs := Option.ne_none_iff_isSome.mp hne
      rw [seedSpec_isSome_iff] at hs
      obtain ⟨_, hle, hlt⟩ := hs
      exact (Nat.div_eq_of_lt_le hle (by rw [Nat.succ_mul]; exact hlt)).symm
  refine ⟨hmain, ?_, ?_⟩
  · intro x hx hinact t ht
    have hxlen : x < (flatActive bs req).length := by
      rw [hlen]
      exact hx
    rw [passAssign_spec S _ _ hS hshape t (hta t ht), getD_range_map _ _ _ _ hxlen,
      seedSpec, if_neg]
    intro hc
    rw [hinact] at hc
    exact absurd hc.1 (by simp)
  · intro x hx hreq
    refine hmain x hx ?_
    rw [getD_flatActive bs req x hx]
    exact hreq

theorem claim_C1_witness :
    (0 : Nat) < 3 ∧ (∀ b ∈ ([2, 3, 2] : List Nat), 0 < b) ∧
    ((∀ x, x < List.sum [2, 3, 2] →
        (flatActive [2, 3, 2] [true, false, true]).getD x false = true →
        ∃! t, t < numStrides (numActive [2, 3, 2] [true, false, true]) 3 ∧
          (passAssign 3 (sectionList [2, 3, 2] [true, false, true])
            (flatActive [2, 3, 2] [true, false, true]) t).getD x none ≠ none) ∧
      (∀ x, x < List.sum [2, 3, 2] →
        (flatActive [2, 3, 2] [true, false, true]).getD x false = false →
        ∀ t, t < numStrides (numActive [2, 3, 2] [true, false, true]) 3 →
          (passAssign 3 (sectionList [2, 3, 2] [true, false, true])
            (flatActive [2, 3, 2] [true, false, true]) t).getD x none = none) ∧
      (∀ x, x < List.sum [2, 3, 2] →
        ([true, false, true] : List Bool).getD (posBlock [2, 3, 2] x).1 false = true →
        ∃! t, t < numStrides (numActive [2, 3, 2] [true, false, true]) 3 ∧
          (passAssign 3 (sectionList [2, 3, 2] [true, false, true])
            (flatActive [2, 3, 2] [true, false, true]) t).getD x none ≠ none)) :=
  ⟨by decide, by decide, claim_C1 3 [2, 3, 2] [true, false, true] (by decide) (by decide)⟩

end

end CeresDyn
